import Mathlib

/-!
Verification of the WhatsApp order-verification pipeline
(`processor.py`, class `WhatsAppOrderProcessor`) against its
natural-language specification.

The Python code is shallowly embedded: pandas cells that may be NaN are
`Option String`, monetary values are `ℚ`, tables are lists of rows plus a
list of column labels, and every Python string operation used by the code
(str.capitalize, str.split, re.sub of the dot-spacing pattern,
urllib.parse.quote, ...) is given an executable Lean counterpart on
`List Char` / `String`, restricted to the ASCII behaviour the data uses.
-/

namespace OrderVerif

/-! ## Basic character / list-of-char helpers (Python string semantics) -/

/-- `startsL l p` : the list `l` starts with the list `p`
(Python `str.startswith`). -/
def startsL : List Char → List Char → Bool
  | _, [] => true
  | [], _ :: _ => false
  | c :: cs, d :: ds => c = d && startsL cs ds

/-- The apostrophe character, written via its code point. -/
def apos : Char := Char.ofNat 39

/-! ## PhoneNormalizer: `WhatsAppOrderProcessor.clean_phone_number`

```python
def clean_phone_number(self, phone: str) -> str:
    if pd.isna(phone):
        return ""
    phone = ''.join(filter(str.isdigit, str(phone)))
    if phone.startswith('0'):
        return '0' + phone[1:]
    elif not phone.startswith(('88', '+88')):
        return '0' + phone
    return phone
```

A NaN/None cell is `none`; any other cell is `some s` with `s` the
result of Python `str(...)`. -/

/-- The branch structure of `clean_phone_number` applied to the already
digit-filtered character list. -/
def cleanRun (d : List Char) : String :=
  if startsL d ['0'] then String.mk ('0' :: d.tail)
  else if !(startsL d ['8', '8'] || startsL d ['+', '8', '8']) then String.mk ('0' :: d)
  else String.mk d

/-- Embedding of `clean_phone_number` on a non-NaN string value. -/
def cleanPhoneStr (s : String) : String :=
  cleanRun (s.data.filter Char.isDigit)

/-- Embedding of `clean_phone_number`; `none` is a NaN cell. -/
def clean_phone_number : Option String → String
  | none => ""
  | some s => cleanPhoneStr s

/-- The amended phone-normalization specification: strip non-digits; a NaN
input yields `""`; digits starting with `0` or with `88` are kept unchanged;
every other digit string — including the empty one obtained from a blank or
digit-free cell — gets a single `0` prepended (so a blank cell yields `"0"`,
not `""`). -/
def cleanPhoneAmended : Option String → String
  | none => ""
  | some s =>
    let d := s.data.filter Char.isDigit
    if startsL d ['0'] then String.mk d
    else if startsL d ['8', '8'] then String.mk d
    else String.mk ('0' :: d)

/-! ## TextFormatter: `WhatsAppOrderProcessor.format_text`

```python
def format_text(self, text: str) -> str:
    if not isinstance(text, str) or not text.strip():
        return ""
    def capitalize_word(w):
        if '-' in w:
            return '-'.join(p.capitalize() for p in w.split('-'))
        if "'" in w:
            return "'".join(p.capitalize() for p in w.split("'"))
        if '.' in w and not w.endswith('.'):
            return '. '.join(p.capitalize() for p in w.split('.'))
        return w.capitalize()
    if ',' in text:
        parts = [p.strip() for p in text.split(',')]
        formatted_parts = []
        for part in parts:
            if not part: continue
            formatted_parts.append(' '.join(capitalize_word(w) for w in part.split()))
        return ', '.join(formatted_parts)
    text = re.sub(r'\.(\w)', r'. \1', text.strip())
    return ' '.join(capitalize_word(w) for w in text.split())
```

All character-level operations are modelled on `List Char` with the ASCII
behaviour of Python's `str.capitalize`, `str.split`, `str.strip` and of the
regex word class. -/

/-- Python's whitespace test for `str.split()` / `str.strip()` (ASCII). -/
def isWS (c : Char) : Bool := c.isWhitespace

/-- The regex word class `\w` (ASCII): alphanumeric or underscore. -/
def wordChar (c : Char) : Bool := c.isAlphanum || c = '_'

/-- ASCII lower-casing, the behaviour of Python `str.lower` on ASCII text. -/
def lowerC (c : Char) : Char := c.toLower

/-- ASCII upper-casing. -/
def upperC (c : Char) : Char := c.toUpper

/-- Python `str.capitalize`: first character upper-cased, the rest
lower-cased. -/
def pyCapitalizeL : List Char → List Char
  | [] => []
  | c :: cs => upperC c :: cs.map lowerC

/-- Python `str.split(sep)` for a one-character separator: splits at every
occurrence, keeping empty segments; the result is always nonempty. -/
def splitP (p : Char → Bool) : List Char → List (List Char)
  | [] => [[]]
  | c :: cs =>
    let r := splitP p cs
    if p c then [] :: r
    else (c :: r.headI) :: r.tail

/-- Python `str.split()` (no argument): split on whitespace runs, dropping
empty segments. -/
def words (l : List Char) : List (List Char) :=
  (splitP isWS l).filter (fun w => ¬ w = [])

/-- Python `sep.join(...)` on character lists. -/
def joinSep (sep : List Char) : List (List Char) → List Char
  | [] => []
  | [w] => w
  | w :: v :: ws => w ++ sep ++ joinSep sep (v :: ws)

/-- Fuel-driven worker for Python `str.split(sep)` with a nonempty
separator; the fuel is an upper bound on the number of characters consumed
and never runs out when initialized to `hay.length + 1`. -/
def splitSubF (sep : List Char) : Nat → List Char → List (List Char)
  | _, [] => [[]]
  | 0, hay => [hay]
  | Nat.succ n, c :: cs =>
    if startsL (c :: cs) sep then
      [] :: splitSubF sep n (List.drop sep.length (c :: cs))
    else
      match splitSubF sep n cs with
      | [] => [[c]]
      | w :: ws => (c :: w) :: ws

/-- Python `str.split(sep)` for a nonempty separator: all occurrences are
split points, empty segments kept. -/
def splitSub (sep hay : List Char) : List (List Char) :=
  if sep = [] then [hay] else splitSubF sep (hay.length + 1) hay

/-- Python `str.split(sep)` on strings. -/
def pySplitOn (sep s : String) : List String :=
  (splitSub sep.data s.data).map String.mk

/-- Python `str.strip()`: drop leading and trailing whitespace. -/
def stripL (l : List Char) : List Char :=
  ((l.dropWhile isWS).reverse.dropWhile isWS).reverse

/-- Python `str.strip()` on strings. -/
def pyStrip (s : String) : String := String.mk (stripL s.data)

/-- The substitution `re.sub(r'\.(\w)', r'. \1', text)`: insert a space after
every period that is immediately followed by a word character; scanning
resumes after the matched character, exactly as `re.sub` does. -/
def dotSpace : List Char → List Char
  | [] => []
  | [c] => [c]
  | c :: d :: rest =>
    if c = '.' ∧ wordChar d then '.' :: ' ' :: d :: dotSpace rest
    else c :: dotSpace (d :: rest)

/-- Python `w.endswith('.')` on a character list. -/
def endsDot (w : List Char) : Bool := w.getLast? = some '.'

/-- The inner helper `capitalize_word` of `format_text`. -/
def capWord (w : List Char) : List Char :=
  if w.contains '-' then joinSep ['-'] ((splitP (fun c => c = '-') w).map pyCapitalizeL)
  else if w.contains apos then joinSep [apos] ((splitP (fun c => c = apos) w).map pyCapitalizeL)
  else if w.contains '.' && !endsDot w then
    joinSep ['.', ' '] ((splitP (fun c => c = '.') w).map pyCapitalizeL)
  else pyCapitalizeL w

/-- One comma-separated part: `' '.join(capitalize_word(w) for w in part.split())`. -/
def fmtPart (part : List Char) : List Char := joinSep [' '] ((words part).map capWord)

/-- Embedding of `format_text` on a character list. -/
def formatTextL (t : List Char) : List Char :=
  if stripL t = [] then []
  else if t.contains ',' then
    joinSep [',', ' ']
      ((((splitP (fun c => c = ',') t).map stripL).filter (fun w => ¬ w = [])).map fmtPart)
  else fmtPart (dotSpace (stripL t))

/-- Embedding of `format_text` on strings (`none` handling lives in
`format_name`). -/
def format_text (s : String) : String := String.mk (formatTextL s.data)

/-- Embedding of `format_name`:
`self.format_text(str(name)) if pd.notna(name) else ""`. -/
def format_name : Option String → String
  | none => ""
  | some s => format_text s

/-- Python `str.lower` (ASCII). -/
def pyLower (s : String) : String := String.mk (s.data.map lowerC)

/-! ## SalutationClassifier: `WhatsAppOrderProcessor.detect_gender_salutation` -/

/-- The fixed feminine name/title markers of `detect_gender_salutation`. -/
def femaleIndicators : List String :=
  ["ms", "miss", "mrs", "mst", "begum", "khatun", "akter", "parvin",
   "sultana", "jahan", "bibi", "rani", "devi", "nahar", "ferdous",
   "ara", "banu", "fatema", "aisha", "khadija", "nusrat", "farhana",
   "sadia", "jannatul", "sumaiya", "tanjina", "fariha", "sharmin",
   "nasrin", "salma", "shirin", "rumana", "sabina", "moumita"]

/-- Embedding of `detect_gender_salutation` (its non-string branch returns
"Sir"; group names in the pipeline are always strings). -/
def detect_gender_salutation (name : String) : String :=
  let nl := (pyLower name).data.map (fun c => if c = '.' then ' ' else c)
  if ((words nl).map String.mk).any (fun p => femaleIndicators.contains p) then "Madam"
  else "Sir"

/-! ## Data model: column map, raw table, normalized rows, groups

The pandas `DataFrame` is modelled as a list of raw rows plus the list of its
column labels; a cell that may be NaN is an `Option String`; the monetary
order-total cell is a rational (Python floats carry exact decimal data in
this pipeline and the claims do not depend on binary rounding). -/

/-- The `config` dictionary of `WhatsAppOrderProcessor.__init__`. -/
structure ColumnMap where
  phone_col : String
  name_col : String
  order_id_col : String
  product_col : String
  sku_col : String
  quantity_col : String
  price_col : String
  payment_method_col : String
  address_col : String
  order_total_col : String
  city_col : String
deriving DecidableEq

/-- The default column mapping of `__init__`. -/
def defaultConfig : ColumnMap :=
  { phone_col := "Phone (Billing)"
    name_col := "Full Name (Billing)"
    order_id_col := "Order ID"
    product_col := "Product Name (main)"
    sku_col := "SKU"
    quantity_col := "Quantity"
    price_col := "Item cost"
    payment_method_col := "Payment Method Title"
    address_col := "Address 1&2 (Billing)"
    order_total_col := "Order Total Amount"
    city_col := "City, State, Zip (Billing)" }

/-- One raw input line item. Quantity and unit price are carried as the
strings the aggregation renders them to (`map(str, x)`); the order total is
the numeric cell. -/
structure RawRow where
  phone : Option String
  name : Option String
  orderId : String
  product : Option String
  sku : Option String
  quantity : String
  price : String
  address : Option String
  city : Option String
  payment : Option String
  total : ℤ
deriving DecidableEq

/-- The input table: column labels (as supplied, before stripping) plus
rows. -/
structure Table where
  cols : List String
  rows : List RawRow
deriving DecidableEq

/-- A row after the normalization pass of `process_orders` (lines 104-122):
phone cleaned, name formatted, address/city formatted when their columns
exist (`none` = column absent), SKU folded into the product text. -/
structure NRow where
  phone : String
  name : String
  orderId : String
  product : String
  quantity : String
  price : String
  address : Option String
  city : Option String
  payment : Option String
  total : ℤ
deriving DecidableEq

/-- One aggregated customer group (one row of `grouped_df`), with the
line-level columns kept as lists; the joined string forms the composer reads
are derived below. -/
structure Group where
  phone : String
  name : String
  orderIds : List String
  products : List String
  quantities : List String
  prices : List String
  address : Option String
  city : Option String
  payment : Option String
deriving DecidableEq

/-- First-occurrence deduplication (pandas `Series.unique`), scanning with
the set of already-seen values. -/
def firstDedupAux (seen : List String) : List String → List String
  | [] => []
  | x :: xs =>
    if seen.contains x then firstDedupAux seen xs
    else x :: firstDedupAux (x :: seen) xs

/-- First-occurrence deduplication (pandas `Series.unique`). -/
def firstDedup (l : List String) : List String := firstDedupAux [] l

/-- The group's order-id cell: `', '.join(map(str, x.unique()))`. -/
def Group.orderIdStr (g : Group) : String :=
  String.intercalate ", " (firstDedup g.orderIds)

/-- The group's product cell: `'\n- '.join(x)`. -/
def Group.productsStr (g : Group) : String := String.intercalate "\n- " g.products

/-- The group's quantity cell: `'\n- '.join(map(str, x))`. -/
def Group.quantitiesStr (g : Group) : String := String.intercalate "\n- " g.quantities

/-- The group's unit-price cell: `'\n- '.join(map(str, x))`. -/
def Group.pricesStr (g : Group) : String := String.intercalate "\n- " g.prices

/-! ## Normalization pass of `process_orders` -/

/-- Column labels after `df.columns = [str(col).strip() for col in df.columns]`. -/
def strippedCols (t : Table) : List String := t.cols.map pyStrip

/-- Presence test for an optional column:
`col_name and col_name in df.columns` (empty mapping is falsy). -/
def hasOptCol (col : String) (t : Table) : Bool :=
  (col != "") && (strippedCols t).contains col

/-- SKU integration (lines 114-122): when the SKU column exists, `combine`
turns a NaN product cell into `""` (line 119) and appends `" - {sku}"` when
the SKU cell is non-blank and not the literal text "nan"; when it does not,
the source leaves the product cell untouched, so a NaN cell stays NaN and
later aborts the aggregation join (`productJoinCrashes` below). On runs that
do not abort, every untouched cell is `some`, so the `getD ""` of the no-SKU
branch is exactly the identity embedding of the string cell. -/
def skuCombine (hasSku : Bool) (product sku : Option String) : String :=
  if hasSku then
    let p := product.getD ""
    let s := sku.getD ""
    if ¬ stripL s.data = [] ∧ ¬ pyLower s = "nan" then p ++ " - " ++ s else p
  else product.getD ""

/-- The normalization pass applied to one row (lines 104-122). -/
def normalizeRow (hasSku hasAddr hasCity hasPay : Bool) (r : RawRow) : NRow :=
  { phone := clean_phone_number r.phone
    name := format_name r.name
    orderId := r.orderId
    product := skuCombine hasSku r.product r.sku
    quantity := r.quantity
    price := r.price
    address := if hasAddr then some (match r.address with
      | none => ""
      | some s => format_text s) else none
    city := if hasCity then some (match r.city with
      | none => ""
      | some s => format_text s) else none
    payment := if hasPay then r.payment else none
    total := r.total }

/-! ## Grouping (`df.groupby(phone_col).agg(...)`, lines 124-139)

pandas builds each group by scanning rows in order and appending each row to
the group of its key; the fold below does the same. (pandas additionally
sorts the groups by key; none of the claims concern group order.) -/

/-- A fresh group from its first row. -/
def mkGroup (r : NRow) : Group :=
  { phone := r.phone, name := r.name, orderIds := [r.orderId],
    products := [r.product], quantities := [r.quantity], prices := [r.price],
    address := r.address, city := r.city, payment := r.payment }

/-- Append a later row of the same phone: line-level columns accumulate,
`'first'`-aggregated columns keep the first row's value — except that pandas
`'first'` skips nulls, so the payment cell (the only `'first'` column that
can still be NaN after normalization) takes the first non-null value. -/
def addToGroup (g : Group) (r : NRow) : Group :=
  { g with orderIds := g.orderIds ++ [r.orderId],
           products := g.products ++ [r.product],
           quantities := g.quantities ++ [r.quantity],
           prices := g.prices ++ [r.price],
           payment := match g.payment with
             | none => r.payment
             | some v => some v }

/-- Route one row to its group, keeping first-appearance group order. -/
def insertRow : List Group → NRow → List Group
  | [], r => [mkGroup r]
  | g :: gs, r =>
    if g.phone = r.phone then addToGroup g r :: gs else g :: insertRow gs r

/-- The grouping fold over the normalized rows. -/
def groupRows (rows : List NRow) : List Group := rows.foldl insertRow []

/-! ## Total reconciliation (lines 141-153) -/

/-- `df.drop_duplicates(subset=[order_id_col])`: keep, for each order id, the
first row of the whole table carrying it. -/
def dropDupOrdersAux (seen : List String) : List NRow → List NRow
  | [] => []
  | r :: rs =>
    if seen.contains r.orderId then dropDupOrdersAux seen rs
    else r :: dropDupOrdersAux (r.orderId :: seen) rs

/-- `df.drop_duplicates(subset=[order_id_col])` over the whole table. -/
def dropDupOrders (rows : List NRow) : List NRow := dropDupOrdersAux [] rows

/-- `unique_orders.groupby(phone_col)[total_col].sum()` followed by `.map`:
the phone's summed unique-order totals, or `none` (NaN) when no deduplicated
row carries this phone. -/
def groupTotal (rows : List NRow) (p : String) : Option ℤ :=
  let mine := (dropDupOrders rows).filter (fun r => r.phone = p)
  if mine = [] then none else some (mine.map NRow.total).sum

/-! ## `process_orders` -/

/-- Errors of the aggregation stage: the explicit configuration `ValueError`
of the column validation (line 100), the pandas `KeyError` raised by
`agg` when a column it was told to aggregate does not exist, or the pandas
`TypeError` raised by `'\n- '.join(x)` (line 128) when the product column
still holds a NaN float because no SKU column was mapped. -/
inductive ProcError where
  | configError (missing : List String)
  | keyError (col : String)
  | typeError
deriving DecidableEq

/-- The list built at line 98: every required mapped column absent from the
(stripped) table columns, in the order phone, name, product. -/
def missingRequired (cfg : ColumnMap) (t : Table) : List String :=
  [cfg.phone_col, cfg.name_col, cfg.product_col].filter
    (fun c => ¬ (strippedCols t).contains c = true)

/-- The output of `process_orders`: the grouped rows with, for each group,
the reconciled total (`none` = NaN cell, or column not produced at all when
`hasTotalCol` is false). -/
structure Grouped where
  hasTotalCol : Bool
  rows : List (Group × Option ℤ)
deriving DecidableEq

/-- The normalization pass over the whole table. -/
def normalizedRows (cfg : ColumnMap) (t : Table) : List NRow :=
  t.rows.map (normalizeRow (hasOptCol cfg.sku_col t) (hasOptCol cfg.address_col t)
    (hasOptCol cfg.city_col t) (hasOptCol cfg.payment_method_col t))

/-- Line 128's `'\n- '.join(x)` over the product column raises `TypeError`
when some cell is not a string: that happens exactly when no SKU column was
mapped (so the combine of lines 117-122 never replaced the cells by strings)
and some product cell is NaN. `agg` validates its column keys (the
`KeyError`s) before applying any aggregation function, and the abort leaves
no output. -/
def productJoinCrashes (cfg : ColumnMap) (t : Table) : Bool :=
  !hasOptCol cfg.sku_col t && t.rows.any (fun r => r.product.isNone)

/-- Embedding of `process_orders` (lines 92-155). -/
def process_orders (cfg : ColumnMap) (t : Table) : Except ProcError Grouped :=
  let missing := missingRequired cfg t
  if ¬ missing = [] then .error (.configError missing)
  else if ¬ (strippedCols t).contains cfg.order_id_col = true then
    .error (.keyError cfg.order_id_col)
  else if ¬ (strippedCols t).contains cfg.quantity_col = true then
    .error (.keyError cfg.quantity_col)
  else if ¬ (strippedCols t).contains cfg.price_col = true then
    .error (.keyError cfg.price_col)
  else if productJoinCrashes cfg t = true then .error .typeError
  else
    let nrows := normalizedRows cfg t
    let hasTotal := (strippedCols t).contains cfg.order_total_col
    .ok { hasTotalCol := hasTotal
          rows := (groupRows nrows).map (fun g =>
            (g, if hasTotal then groupTotal nrows g.phone else none)) }

/-! ## MessageComposer / LinkEncoder: `create_whatsapp_links` (lines 157-236) -/

/-- Python `needle in hay` substring test. -/
def containsL (needle : List Char) : List Char → Bool
  | [] => needle.isEmpty
  | c :: cs => startsL (c :: cs) needle || containsL needle cs

/-- The fixed "already paid" indicators of line 209. -/
def paidIndicators : List String := ["bkash", "online", "ssl", "paid"]

/-- Lines 206-210: a payment value is present (column exists, cell not NaN)
and its lower-cased text contains a paid indicator. -/
def isPaid : Option String → Bool
  | none => false
  | some m => paidIndicators.any (fun x => containsL x.data (pyLower m).data)

/-- The collectable amount computed at lines 204-210. -/
def collectableAmount (payment : Option String) (total : ℤ) : ℤ :=
  if isPaid payment then 0 else total

/-- Python `f"{x:.2f}"`. Order totals are modelled as exact integer
amounts (the claims do not depend on fractional cents), so the two-decimal
rendering appends `".00"`. -/
def fmt2 (m : ℤ) : String := toString m ++ ".00"

/-- Embedding of `format_address` (lines 68-70): format each non-null,
non-blank part and join with newlines. -/
def format_address (parts : List (Option String)) : String :=
  String.intercalate "\n"
    (((parts.filterMap id).filter (fun s => ¬ stripL s.data = [])).map format_text)

/-- One product line of the message loop (lines 196-200). -/
def itemLine (quantities prices : List String) (i : Nat) (prod : String) : String :=
  let l1 := "- " ++ pyStrip prod
  let l2 := if i < quantities.length then l1 ++ " - Qty: " ++ pyStrip (quantities.getD i "")
            else l1
  if i < prices.length then l2 ++ " - Price: " ++ pyStrip (prices.getD i "") ++ " BDT" else l2

/-- The fixed message header (lines 177-189). -/
def headerLines (g : Group) : List String :=
  ["*Order Verification From DEEN Commerce*", "",
   "Assalamu Alaikum, " ++ detect_gender_salutation g.name ++ "!", "",
   "Dear " ++ g.name ++ ",", "",
   "Please verify your order details:", "",
   "*Order ID:* " ++ g.orderIdStr, "",
   "*Your Order:*"]

/-- The itemized product lines (lines 192-200): the composer re-splits the
joined cell strings on the `"\n- "` separator. -/
def itemLines (g : Group) : List String :=
  let products := pySplitOn "\n- " g.productsStr
  let quantities := pySplitOn "\n- " g.quantitiesStr
  let prices := pySplitOn "\n- " g.pricesStr
  products.enum.map (fun p => itemLine quantities prices p.1 p.2)

/-- The total/collectable block (lines 212-217): note the branch tests the
computed collectable amount, not the payment method. -/
def totalBlock (collectable total : ℤ) : List String :=
  if collectable = 0 then
    ["*Total Amount:* " ++ fmt2 total ++ " BDT (PAID)",
     "*Collectable Amount:* 0 BDT"]
  else ["*Total Amount:* " ++ fmt2 total ++ " BDT"]

/-- The fixed closing block (lines 219-230). -/
def footerLines (g : Group) : List String :=
  ["", "*Shipping Address:*", format_address [g.address, g.city], "",
   "Please confirm the order and address.",
   "If any correction is needed, please let us know the possible adjustment.",
   "",
   "*Delivery fees apply for returns.*", "",
   "Thank you for shopping with DEEN Commerce! Grab our latest collection on: https://deencommerce.com/"]

/-- The full message line list of one group (its grouped-row total cell is
`total`; a NaN total, which Python would render as "nan", is outside the
modelled domain). -/
def composeLines (g : Group) (total : ℤ) : List String :=
  headerLines g ++ itemLines g ++ [""] ++
    totalBlock (collectableAmount g.payment total) total ++ footerLines g

/-- `message = "\n".join(lines)`. -/
def composeMessage (g : Group) (total : ℤ) : String :=
  String.intercalate "\n" (composeLines g total)

/-- Is this byte left unescaped by `urllib.parse.quote` with the default
`safe='/'`? (unreserved `A-Z a-z 0-9 - . _ ~` plus `/`). -/
def unreservedByte (b : UInt8) : Bool :=
  (48 ≤ b.toNat && b.toNat ≤ 57) || (65 ≤ b.toNat && b.toNat ≤ 90) ||
  (97 ≤ b.toNat && b.toNat ≤ 122) || b.toNat = 45 || b.toNat = 46 ||
  b.toNat = 95 || b.toNat = 126 || b.toNat = 47

/-- Upper-case hex digit of a value below 16. -/
def hexDigitU (n : Nat) : Char :=
  if n < 10 then Char.ofNat (48 + n) else Char.ofNat (55 + n)

/-- Percent-encode one UTF-8 byte as `urllib.parse.quote` does. -/
def quoteByte (b : UInt8) : List Char :=
  if unreservedByte b then [Char.ofNat b.toNat]
  else ['%', hexDigitU (b.toNat / 16), hexDigitU (b.toNat % 16)]

/-- Embedding of `urllib.parse.quote` (default safe characters). -/
def pyQuote (s : String) : String :=
  String.mk (s.toUTF8.toList.map quoteByte).flatten

/-- The deep link written at line 234. -/
def linkFor (g : Group) (total : ℤ) : String :=
  "https://wa.me/+88" ++ g.phone ++ "?text=" ++ pyQuote (composeMessage g total)

/-- Embedding of the link-generation loop of `create_whatsapp_links`: every
grouped row is kept; a row whose phone is falsy (empty) keeps a `None` link
(line 159 initializes the column to `None`, line 164 skips the row). -/
def create_whatsapp_links (rows : List (Group × ℤ)) : List ((Group × ℤ) × Option String) :=
  rows.map (fun gr => (gr, if gr.1.phone = "" then none else some (linkFor gr.1 gr.2)))

/-! ## Specification-side descriptions and concrete fixtures -/

/-- The per-group characterization of the grouping fold: the line-level
columns of a group are exactly the per-row values of the rows carrying the
group's phone, in original row order. -/
def groupChar (g : Group) (rows : List NRow) : Prop :=
  g.products = (rows.filter (fun r => r.phone = g.phone)).map NRow.product ∧
  g.quantities = (rows.filter (fun r => r.phone = g.phone)).map NRow.quantity ∧
  g.prices = (rows.filter (fun r => r.phone = g.phone)).map NRow.price

/-- The total claim C1 prescribes for a phone group: the sum of the
order-total values of the rows remaining after deduplicating to one row per
unique order identifier, restricted to that group's phone. -/
def c1ClaimTotal (rows : List NRow) (p : String) : ℤ :=
  (((dropDupOrders rows).filter (fun r => r.phone = p)).map NRow.total).sum

/-- Phone/total projection of a successful `process_orders` run. -/
def procPhoneTotals (cfg : ColumnMap) (t : Table) : Option (List (String × Option ℤ)) :=
  match process_orders cfg t with
  | .error _ => none
  | .ok o => some (o.rows.map (fun pr => (pr.1.phone, pr.2)))

/-- Fixture: a group with a prepaid (bKash) payment method. -/
def gPaid : Group :=
  { phone := "01711000000", name := "Jane Doe", orderIds := ["A1"],
    products := ["Shirt"], quantities := ["1"], prices := ["500"],
    address := some "Dhaka", city := none, payment := some "bKash" }

/-- Fixture: a cash-on-delivery group (no paid indicator in the payment
text), used with a zero order total. -/
def gCod0 : Group :=
  { phone := "01711000000", name := "Jane Doe", orderIds := ["A1"],
    products := ["Shirt"], quantities := ["1"], prices := ["0"],
    address := some "Dhaka", city := none, payment := some "Cash Delivery" }

/-- Fixture: two line items of one order id `"X"` under two different
phones, exercising the global order-id deduplication. -/
def exTableDup : Table :=
  { cols := ["Phone (Billing)", "Full Name (Billing)", "Product Name (main)",
             "Order ID", "Quantity", "Item cost", "Order Total Amount"]
    rows :=
      [{ phone := some "017", name := some "a", orderId := "X", product := some "P1",
         sku := none, quantity := "1", price := "500", address := none, city := none,
         payment := none, total := 500 },
       { phone := some "16", name := some "b", orderId := "X", product := some "P2",
         sku := none, quantity := "1", price := "700", address := none, city := none,
         payment := none, total := 500 }] }

/-- Fixture: a table that passes required-column validation (phone, name and
product columns all present) but maps no SKU column and carries a NaN
product cell — the aggregation join of line 128 aborts on it. -/
def tCrash : Table :=
  { cols := ["Phone (Billing)", "Full Name (Billing)", "Product Name (main)",
             "Order ID", "Quantity", "Item cost"]
    rows :=
      [{ phone := some "01711000000", name := some "jane doe", orderId := "A1",
         product := none, sku := none, quantity := "1", price := "500",
         address := none, city := none, payment := none, total := 500 }] }

/-- Fixture: a table whose mapped phone column is absent. -/
def tMissingPhone : Table :=
  { cols := ["Full Name (Billing)", "Product Name (main)", "Order ID",
             "Quantity", "Item cost"]
    rows := [] }

/-- Fixture: the end-to-end example of the specification — two line items of
one order under two spellings of one phone number. -/
def tSmall : Table :=
  { cols := ["Phone (Billing)", "Full Name (Billing)", "Product Name (main)",
             "Order ID", "Quantity", "Item cost", "Order Total Amount"]
    rows :=
      [{ phone := some "01711000000", name := some "jane doe", orderId := "A1",
         product := some "Shirt", sku := none, quantity := "1", price := "500",
         address := none, city := none, payment := none, total := 500 },
       { phone := some "1711000000", name := some "Jane Doe", orderId := "A1",
         product := some "Pants", sku := none, quantity := "1", price := "700",
         address := none, city := none, payment := none, total := 500 }] }

/-- No period is immediately followed by a word character — the invariant
established by the dot-spacing substitution, under which it is the identity. -/
def okDW : List Char → Prop
  | [] => True
  | [_] => True
  | c :: d :: rest => (c = '.' → wordChar d = false) ∧ okDW (d :: rest)

/-- The space-separated pieces of `'. '.join(parts)`: every part except the
last carries a trailing period. -/
def piecesDot : List (List Char) → List (List Char)
  | [] => []
  | [q] => [q]
  | q :: q2 :: qs => (q ++ ['.']) :: piecesDot (q2 :: qs)

/-- The single aggregated group that `tSmall` produces. -/
def gSmall : Group :=
  { phone := "01711000000", name := "Jane Doe", orderIds := ["A1", "A1"],
    products := ["Shirt", "Pants"], quantities := ["1", "1"],
    prices := ["500", "700"], address := none, city := none, payment := none }

/-- The full `process_orders` output on `tSmall`. -/
def outSmall : Grouped := { hasTotalCol := true, rows := [(gSmall, some 500)] }

/-- Every character of a digit-filtered list is a digit, so the list can
start with neither a plus sign nor any other non-digit. -/
theorem filter_digit_head_isDigit {l : List Char} {c : Char} {cs : List Char}
    (h : l.filter Char.isDigit = c :: cs) : c.isDigit = true := by
  have : c ∈ l.filter Char.isDigit := by rw [h]; exact List.mem_cons_self _ _
  exact (List.mem_filter.mp this).2

/-- Filtering digits is idempotent. -/
theorem filter_digit_idem (l : List Char) :
    (l.filter Char.isDigit).filter Char.isDigit = l.filter Char.isDigit := by
  apply List.filter_eq_self.mpr
  intro c hc
  exact (List.mem_filter.mp hc).2

/-- On an all-digit list, the `"+88"` branch of the normalizer can never
fire, since the list cannot start with a plus sign. -/
theorem startsL_plus_of_digits {d : List Char}
    (hd : ∀ c ∈ d, c.isDigit = true) : startsL d ['+', '8', '8'] = false := by
  cases d with
  | nil => rfl
  | cons c cs =>
    simp only [startsL, Bool.and_eq_false_iff]
    left
    simp only [decide_eq_false_iff_not]
    intro hq
    have := hd c (List.mem_cons_self _ _)
    rw [hq] at this
    exact absurd this (by decide)

/-- If a list starts with the single character `c`, it is `c` followed by its
tail. -/
theorem startsL_single {d : List Char} {c : Char} (h : startsL d [c] = true) :
    d = c :: d.tail := by
  cases d with
  | nil => exact absurd h (by simp [startsL])
  | cons a as =>
    simp only [startsL, Bool.and_eq_true, decide_eq_true_eq] at h
    rw [h.1]
    rfl

/-- Branch analysis of `cleanRun` on an all-digit list, matching the amended
specification. -/
theorem cleanRun_eq_amended {d : List Char} (hd : ∀ c ∈ d, c.isDigit = true) :
    cleanRun d =
      (if startsL d ['0'] then String.mk d
       else if startsL d ['8', '8'] then String.mk d
       else String.mk ('0' :: d)) := by
  have hplus := startsL_plus_of_digits hd
  unfold cleanRun
  rw [hplus]
  cases hb0 : startsL d ['0'] with
  | true =>
    have ht := startsL_single hb0
    simp only [if_pos]
    exact (congrArg String.mk ht).symm
  | false =>
    cases hb88 : startsL d ['8', '8'] with
    | true => simp
    | false => simp

/-- C4 (counterexample): the blank, non-null input `" "` is normalized to
`"0"`, not to the empty string the claim asserts for blank inputs. -/
theorem c4_blank_phone_counterexample :
    clean_phone_number (some " ") = "0" ∧ ¬ clean_phone_number (some " ") = "" := by
  constructor <;> decide

/-- C4 (amended): phone normalization strips all non-digit characters; a null
cell yields `""`; if the digits start with `"0"` they are returned unchanged;
otherwise, if they do not start with `"88"`, a single `"0"` is prepended —
this covers blank input, which yields `"0"` rather than `""`. -/
theorem c4_phone_normalization (x : Option String) :
    clean_phone_number x = cleanPhoneAmended x := by
  cases x with
  | none => rfl
  | some s =>
    show cleanPhoneStr s = _
    have hd : ∀ c ∈ s.data.filter Char.isDigit, c.isDigit = true := by
      intro c hc
      exact (List.mem_filter.mp hc).2
    have := cleanRun_eq_amended hd
    simpa [cleanPhoneStr, cleanPhoneAmended] using this

/-- C9 (counterexample): normalization is not idempotent over all inputs —
a NaN input yields `""`, and re-normalizing `""` yields `"0"` (the empty
string is not a fixed point, contrary to the claim's reasoning). -/
theorem c9_phone_idempotence_counterexample :
    ¬ clean_phone_number (some (clean_phone_number none)) = clean_phone_number none := by
  decide

/-- Every character of the digit-filtered part of a normalization output is a
digit, so filtering it again changes nothing. -/
theorem filter_of_filter_tail {l : List Char} {c : Char} {cs : List Char}
    (h : l.filter Char.isDigit = c :: cs) : cs.filter Char.isDigit = cs := by
  apply List.filter_eq_self.mpr
  intro a ha
  have : a ∈ l.filter Char.isDigit := by rw [h]; exact List.mem_cons_of_mem _ ha
  exact (List.mem_filter.mp this).2

/-- `cleanRun` output, filtered back to digits and re-run, is unchanged:
the list-level idempotence of the normalizer on all-digit input. -/
theorem cleanRun_fix {d : List Char} (hd : ∀ c ∈ d, c.isDigit = true) :
    cleanRun ((cleanRun d).data.filter Char.isDigit) = cleanRun d := by
  rw [cleanRun_eq_amended hd]
  have hfilt : d.filter Char.isDigit = d :=
    List.filter_eq_self.mpr (by intro a ha; simp [hd a ha])
  have hall0 : ∀ c ∈ '0' :: d, c.isDigit = true := by
    intro a ha
    rcases List.mem_cons.mp ha with h1 | h2
    · simp [h1]
    · exact hd a h2
  have hfilt0 : ('0' :: d).filter Char.isDigit = '0' :: d :=
    List.filter_eq_self.mpr (by intro a ha; simp [hall0 a ha])
  cases hb0 : startsL d ['0'] with
  | true =>
    have ht := startsL_single hb0
    simp only [if_pos]
    rw [hfilt, cleanRun_eq_amended hd, if_pos hb0]
  | false =>
    cases hb88 : startsL d ['8', '8'] with
    | true =>
      simp only [Bool.false_eq_true, if_false, if_pos]
      rw [hfilt, cleanRun_eq_amended hd, if_neg (by simp [hb0]), if_pos hb88]
    | false =>
      simp only [Bool.false_eq_true, if_false]
      rw [hfilt0, cleanRun_eq_amended hall0, if_pos (by simp [startsL])]

/-- C9 (amended): phone normalization is idempotent on every string (non-null)
input: its output is either `"0"`, a digit string starting with `"0"`, or a
digit string starting with `"88"`, and each of those is a fixed point. Only
the null case breaks idempotence, since its output `""` re-normalizes to
`"0"`. -/
theorem c9_phone_idempotent_on_strings (s : String) :
    clean_phone_number (some (clean_phone_number (some s))) =
      clean_phone_number (some s) := by
  show cleanRun ((cleanRun (s.data.filter Char.isDigit)).data.filter Char.isDigit) =
    cleanRun (s.data.filter Char.isDigit)
  exact cleanRun_fix (by intro c hc; exact (List.mem_filter.mp hc).2)

/-! ## C6: required-column validation -/

/-- C6: `process_orders` fails with the configuration error exactly when at
least one required logical field (phone, name, product) has its mapped
column absent from the (stripped) table columns; the error carries exactly
the missing required columns; and a run that raises it produces no output. -/
theorem c6_required_column_validation (cfg : ColumnMap) (t : Table) :
    ((∃ m, process_orders cfg t = .error (.configError m)) ↔
      ¬ missingRequired cfg t = []) ∧
    (∀ m, process_orders cfg t = .error (.configError m) →
      ∀ c, c ∈ m ↔
        (c ∈ [cfg.phone_col, cfg.name_col, cfg.product_col] ∧ c ∉ strippedCols t)) ∧
    (∀ m, process_orders cfg t = .error (.configError m) →
      ∀ out, ¬ process_orders cfg t = .ok out) := by
  by_cases hmiss : missingRequired cfg t = []
  · have hproc : ∀ m, ¬ process_orders cfg t = .error (.configError m) := by
      intro m hm
      unfold process_orders at hm
      rw [if_neg (by simp [hmiss])] at hm
      split at hm
      · exact absurd (by injection hm) (by intro h; injection h)
      · split at hm
        · exact absurd (by injection hm) (by intro h; injection h)
        · split at hm
          · exact absurd (by injection hm) (by intro h; injection h)
          · split at hm
            · exact absurd (by injection hm) (by intro h; injection h)
            · exact absurd hm (by intro h; injection h)
    refine ⟨⟨fun hex => ?_, fun hne => absurd hmiss hne⟩, fun m hm => ?_, fun m hm => ?_⟩
    · obtain ⟨m, hm⟩ := hex
      exact absurd hm (hproc m)
    · exact absurd hm (hproc m)
    · exact absurd hm (hproc m)
  · have hproc : process_orders cfg t = .error (.configError (missingRequired cfg t)) := by
      unfold process_orders
      rw [if_pos hmiss]
    refine ⟨⟨fun _ => hmiss, fun _ => ⟨_, hproc⟩⟩, fun m hm c => ?_, fun m hm out hout => ?_⟩
    · have hmeq : m = missingRequired cfg t := by
        rw [hproc] at hm
        injection hm with h1
        injection h1 with h2
        exact h2.symm
      subst hmeq
      unfold missingRequired
      simp only [List.mem_filter, decide_eq_true_eq]
      constructor
      · rintro ⟨h1, h2⟩
        exact ⟨h1, fun hc => h2 (by simpa [List.elem_iff] using hc)⟩
      · rintro ⟨h1, h2⟩
        exact ⟨h1, by simpa [List.elem_iff] using h2⟩
    · rw [hproc] at hout
      exact absurd hout (by intro h; injection h)

/-- C6 witness: the table whose phone column is missing triggers the
configuration error. -/
theorem c6_witness :
    ∃ m, process_orders defaultConfig tMissingPhone = .error (.configError m) :=
  (c6_required_column_validation defaultConfig tMissingPhone).1.mpr (by decide)

/-! ## C8: link generation -/

/-- All branches of `cleanRun` on an all-digit list produce all-digit
output. -/
theorem cleanRun_digits {d : List Char} (hd : ∀ c ∈ d, c.isDigit = true) :
    ∀ c ∈ (cleanRun d).data, c.isDigit = true := by
  intro c hc
  unfold cleanRun at hc
  split at hc
  · rcases List.mem_cons.mp hc with h | h
    · simp [h]
    · exact hd c (List.tail_subset d h)
  · split at hc
    · rcases List.mem_cons.mp hc with h | h
      · simp [h]
      · exact hd c h
    · exact hd c hc

/-- C8: every grouped row appears in the link-generation output (rows are
never dropped); a row with a non-empty phone gets exactly the link
`https://wa.me/+88<phone>?text=<percent-encoded message>`; a row with an
empty phone keeps a null link; and every pipeline phone is digits-only. -/
theorem c8_whatsapp_link_format (rows : List (Group × ℤ)) :
    ((create_whatsapp_links rows).length = rows.length) ∧
    (∀ gr ∈ rows,
      (¬ gr.1.phone = "" →
        (gr, some ("https://wa.me/+88" ++ gr.1.phone ++ "?text=" ++
          pyQuote (composeMessage gr.1 gr.2))) ∈ create_whatsapp_links rows) ∧
      (gr.1.phone = "" →
        (gr, (none : Option String)) ∈ create_whatsapp_links rows)) ∧
    (∀ x : Option String, ∀ c ∈ (clean_phone_number x).data, c.isDigit = true) := by
  refine ⟨List.length_map _ _, fun gr hgr => ⟨fun hne => ?_, fun he => ?_⟩, fun x => ?_⟩
  · have : (gr, (if gr.1.phone = "" then none else some (linkFor gr.1 gr.2)))
        ∈ create_whatsapp_links rows := List.mem_map_of_mem _ hgr
    rw [if_neg hne] at this
    exact this
  · have : (gr, (if gr.1.phone = "" then none else some (linkFor gr.1 gr.2)))
        ∈ create_whatsapp_links rows := List.mem_map_of_mem _ hgr
    rw [if_pos he] at this
    exact this
  · cases x with
    | none => intro c hc; exact absurd hc (List.not_mem_nil c)
    | some s =>
      exact cleanRun_digits (fun c hc => (List.mem_filter.mp hc).2)

/-- C8 witness: a one-row group list with a non-empty phone receives its
link. -/
theorem c8_witness :
    ((gPaid, (500 : ℤ)),
      some ("https://wa.me/+88" ++ gPaid.phone ++ "?text=" ++
        pyQuote (composeMessage gPaid 500))) ∈ create_whatsapp_links [(gPaid, 500)] :=
  (((c8_whatsapp_link_format [(gPaid, 500)]).2.1 (gPaid, 500)
    (List.mem_cons_self _ _)).1 (by decide))

/-! ## C2: collectable-amount branch -/

/-- C2 (counterexample): an unpaid (cash) order with a zero order total is
marked PAID with a collectable line, although its payment method contains no
paid indicator — the claim's "otherwise only the total line is shown" branch
is violated at `order_total = 0`. -/
theorem c2_zero_total_counterexample :
    isPaid gCod0.payment = false ∧
    collectableAmount gCod0.payment 0 = 0 ∧
    "*Total Amount:* 0.00 BDT (PAID)" ∈ composeLines gCod0 0 ∧
    "*Collectable Amount:* 0 BDT" ∈ composeLines gCod0 0 := by
  refine ⟨by decide, by decide, ?_, ?_⟩ <;> decide

/-- C2 (amended): when the payment text contains a paid indicator the
collectable amount is `0` and the message carries the PAID total line plus
the zero-collectable line; otherwise the collectable amount equals the order
total, and the single plain total line is shown exactly when that total is
non-zero — an unpaid zero-total order also gets the PAID marking, because
the code branches on the computed collectable amount. -/
theorem c2_collectable_branch (g : Group) (total : ℤ) :
    (isPaid g.payment = true →
      collectableAmount g.payment total = 0 ∧
      ("*Total Amount:* " ++ fmt2 total ++ " BDT (PAID)") ∈ composeLines g total ∧
      ("*Collectable Amount:* 0 BDT") ∈ composeLines g total) ∧
    (isPaid g.payment = false →
      collectableAmount g.payment total = total ∧
      (¬ total = 0 →
        totalBlock (collectableAmount g.payment total) total =
          ["*Total Amount:* " ++ fmt2 total ++ " BDT"]) ∧
      (total = 0 →
        totalBlock (collectableAmount g.payment total) total =
          ["*Total Amount:* " ++ fmt2 total ++ " BDT (PAID)",
           "*Collectable Amount:* 0 BDT"])) := by
  constructor
  · intro hp
    have hc : collectableAmount g.payment total = 0 := by
      simp [collectableAmount, hp]
    refine ⟨hc, ?_, ?_⟩
    · have : ("*Total Amount:* " ++ fmt2 total ++ " BDT (PAID)") ∈
          totalBlock (collectableAmount g.payment total) total := by
        rw [hc]
        simp [totalBlock]
      unfold composeLines
      exact List.mem_append_left _ (List.mem_append_right _ this)
    · have : ("*Collectable Amount:* 0 BDT") ∈
          totalBlock (collectableAmount g.payment total) total := by
        rw [hc]
        simp [totalBlock]
      unfold composeLines
      exact List.mem_append_left _ (List.mem_append_right _ this)
  · intro hp
    have hc : collectableAmount g.payment total = total := by
      simp [collectableAmount, hp]
    refine ⟨hc, fun hne => ?_, fun he => ?_⟩
    · rw [hc, totalBlock, if_neg hne]
    · rw [hc, he, totalBlock, if_pos rfl]

/-- C2 witness: a bKash-paid group at total 500 gets collectable 0 and the
PAID total line. -/
theorem c2_witness :
    collectableAmount gPaid.payment 500 = 0 ∧
    ("*Total Amount:* " ++ fmt2 500 ++ " BDT (PAID)") ∈ composeLines gPaid 500 :=
  ⟨((c2_collectable_branch gPaid 500).1 (by decide)).1,
   ((c2_collectable_branch gPaid 500).1 (by decide)).2.1⟩

/-! ## C7: monetary rendering -/

/-- C7 (counterexample): in a prepaid message the collectable amount is
rendered as the literal `0`, not with two decimal places (`0.00`), and the
per-item price is the raw cell text `500`, not `500.00`. -/
theorem c7_two_decimals_counterexample :
    "*Collectable Amount:* 0 BDT" ∈ composeLines gPaid 500 ∧
    ¬ ("*Collectable Amount:* " ++ fmt2 0 ++ " BDT") ∈ composeLines gPaid 500 ∧
    "- Shirt - Qty: 1 - Price: 500 BDT" ∈ composeLines gPaid 500 ∧
    ¬ fmt2 500 = "500" := by
  refine ⟨?_, ?_, ?_, ?_⟩ <;> decide

/-- C7 (amended): the order total is rendered through the two-decimal
formatter in both branches; the collectable amount — shown only when it is
zero — is rendered as the literal `0` without decimals; per-item prices are
the trimmed raw cell strings, not reformatted numbers; and the two-decimal
formatter renders zero as `0.00`. -/
theorem c7_money_rendering (g : Group) (total : ℤ) :
    (collectableAmount g.payment total = 0 →
      totalBlock (collectableAmount g.payment total) total =
        ["*Total Amount:* " ++ fmt2 total ++ " BDT (PAID)",
         "*Collectable Amount:* 0 BDT"]) ∧
    (¬ collectableAmount g.payment total = 0 →
      totalBlock (collectableAmount g.payment total) total =
        ["*Total Amount:* " ++ fmt2 total ++ " BDT"]) ∧
    (∀ qs ps : List String, ∀ i : Nat, ∀ prod : String,
      i < qs.length → i < ps.length →
      itemLine qs ps i prod =
        "- " ++ pyStrip prod ++ " - Qty: " ++ pyStrip (qs.getD i "") ++
          " - Price: " ++ pyStrip (ps.getD i "") ++ " BDT") ∧
    fmt2 0 = "0.00" := by
  refine ⟨fun h0 => ?_, fun hne => ?_, fun qs ps i prod hq hp => ?_, by decide⟩
  · rw [h0, totalBlock, if_pos rfl]
  · rw [totalBlock, if_neg hne]
  · simp [itemLine, hq, hp]

/-- C7 witness: the paid fixture at total 500 produces the PAID/collectable
block through the two-decimal total and the literal zero collectable. -/
theorem c7_witness :
    totalBlock (collectableAmount gPaid.payment 500) 500 =
      ["*Total Amount:* " ++ fmt2 500 ++ " BDT (PAID)",
       "*Collectable Amount:* 0 BDT"] :=
  (c7_money_rendering gPaid 500).1 (by decide)

/-! ## Aggregation lemmas: deduplication and grouping -/

/-- Boolean `contains` agrees with membership. -/
theorem contains_mem {α : Type} [BEq α] [LawfulBEq α] {l : List α} {a : α} :
    l.contains a = true ↔ a ∈ l := by
  show l.elem a = true ↔ a ∈ l
  exact List.elem_iff

/-- Membership in the first-occurrence deduplication: present in the list
and not already seen. -/
theorem mem_firstDedupAux {a : String} :
    ∀ (l seen : List String), a ∈ firstDedupAux seen l ↔ (a ∈ l ∧ a ∉ seen) := by
  intro l
  induction l with
  | nil => intro seen; simp [firstDedupAux]
  | cons x xs ih =>
    intro seen
    unfold firstDedupAux
    by_cases hx : seen.contains x = true
    · rw [if_pos hx, ih seen]
      constructor
      · rintro ⟨h1, h2⟩
        exact ⟨List.mem_cons_of_mem _ h1, h2⟩
      · rintro ⟨h1, h2⟩
        rcases List.mem_cons.mp h1 with rfl | h1
        · exact absurd (contains_mem.mp hx) h2
        · exact ⟨h1, h2⟩
    · rw [if_neg hx]
      constructor
      · intro h
        rcases List.mem_cons.mp h with rfl | h
        · exact ⟨List.mem_cons_self _ _, fun hc => hx (contains_mem.mpr hc)⟩
        · obtain ⟨h1, h2⟩ := (ih (x :: seen)).mp h
          exact ⟨List.mem_cons_of_mem _ h1,
            fun hc => h2 (List.mem_cons_of_mem _ hc)⟩
      · rintro ⟨h1, h2⟩
        rcases List.mem_cons.mp h1 with rfl | h1
        · exact List.mem_cons_self _ _
        · by_cases hax : a = x
          · subst hax
            exact List.mem_cons_self _ _
          · exact List.mem_cons_of_mem _ ((ih (x :: seen)).mpr
              ⟨h1, fun hc => by
                rcases List.mem_cons.mp hc with h | h
                · exact hax h
                · exact h2 h⟩)

/-- The first-occurrence deduplication has no duplicates. -/
theorem nodup_firstDedupAux :
    ∀ (l seen : List String), (firstDedupAux seen l).Nodup := by
  intro l
  induction l with
  | nil => intro seen; simp [firstDedupAux]
  | cons x xs ih =>
    intro seen
    unfold firstDedupAux
    by_cases hx : seen.contains x = true
    · rw [if_pos hx]
      exact ih seen
    · rw [if_neg hx]
      refine List.nodup_cons.mpr ⟨fun hmem => ?_, ih (x :: seen)⟩
      exact ((mem_firstDedupAux xs (x :: seen)).mp hmem).2 (List.mem_cons_self _ _)

/-- Unfolding equation for `firstDedupAux` on a cons cell. -/
theorem firstDedupAux_cons (seen : List String) (x : String) (xs : List String) :
    firstDedupAux seen (x :: xs) =
      if seen.contains x then firstDedupAux seen xs
      else x :: firstDedupAux (x :: seen) xs := rfl

/-- Membership in `firstDedup` is membership in the input. -/
theorem mem_firstDedup {a : String} {l : List String} :
    a ∈ firstDedup l ↔ a ∈ l := by
  show a ∈ firstDedupAux [] l ↔ a ∈ l
  rw [mem_firstDedupAux]
  simp

/-- Appending one element to the input of the deduplication appends it to
the output exactly when it is fresh. -/
theorem firstDedupAux_append_one (a : String) :
    ∀ (l seen : List String),
      firstDedupAux seen (l ++ [a]) =
        firstDedupAux seen l ++ (if a ∈ seen ∨ a ∈ l then [] else [a]) := by
  intro l
  induction l with
  | nil =>
    intro seen
    by_cases ha : a ∈ seen
    · simp [firstDedupAux, contains_mem.mpr ha, ha]
    · have hc : ¬ seen.contains a = true := fun h => ha (contains_mem.mp h)
      simp [firstDedupAux, hc, ha]
  | cons x xs ih =>
    intro seen
    show firstDedupAux seen (x :: (xs ++ [a])) = _
    rw [firstDedupAux_cons, firstDedupAux_cons]
    by_cases hx : seen.contains x = true
    · have hxs : x ∈ seen := contains_mem.mp hx
      have hcond : (a ∈ seen ∨ a ∈ xs) ↔ (a ∈ seen ∨ a ∈ x :: xs) := by
        simp only [List.mem_cons]
        constructor
        · rintro (h | h)
          · exact Or.inl h
          · exact Or.inr (Or.inr h)
        · rintro (h | rfl | h)
          · exact Or.inl h
          · exact Or.inl hxs
          · exact Or.inr h
      rw [if_pos hx, if_pos hx, ih seen,
        if_congr hcond (rfl : ([] : List String) = []) (rfl : [a] = [a])]
    · have hcond : (a ∈ x :: seen ∨ a ∈ xs) ↔ (a ∈ seen ∨ a ∈ x :: xs) := by
        simp only [List.mem_cons]
        tauto
      rw [if_neg hx, if_neg hx, ih (x :: seen),
        if_congr hcond (rfl : ([] : List String) = []) (rfl : [a] = [a])]
      simp

/-- Unfolding equation for `dropDupOrdersAux` on a cons cell. -/
theorem dropDupOrdersAux_cons (seen : List String) (r : NRow) (rs : List NRow) :
    dropDupOrdersAux seen (r :: rs) =
      if seen.contains r.orderId then dropDupOrdersAux seen rs
      else r :: dropDupOrdersAux (r.orderId :: seen) rs := rfl

/-- Every row kept by the deduplication is an input row. -/
theorem dropDupOrdersAux_subset {r : NRow} :
    ∀ (rows : List NRow) (seen : List String),
      r ∈ dropDupOrdersAux seen rows → r ∈ rows := by
  intro rows
  induction rows with
  | nil => intro seen h; exact absurd h (List.not_mem_nil r)
  | cons q rs ih =>
    intro seen h
    rw [dropDupOrdersAux_cons] at h
    by_cases hq : seen.contains q.orderId = true
    · rw [if_pos hq] at h
      exact List.mem_cons_of_mem _ (ih seen h)
    · rw [if_neg hq] at h
      rcases List.mem_cons.mp h with rfl | h
      · exact List.mem_cons_self _ _
      · exact List.mem_cons_of_mem _ (ih (q.orderId :: seen) h)

/-- The first table row carrying an order id not yet seen is kept by the
deduplication, wherever in the table it sits and whatever the phones of the
surrounding rows are. -/
theorem dropDupOrdersAux_keeps_first (r : NRow) :
    ∀ (l1 l2 : List NRow) (seen : List String),
      (∀ q ∈ l1, ¬ q.orderId = r.orderId) → r.orderId ∉ seen →
      r ∈ dropDupOrdersAux seen (l1 ++ r :: l2) := by
  intro l1
  induction l1 with
  | nil =>
    intro l2 seen _ hseen
    rw [List.nil_append, dropDupOrdersAux_cons,
      if_neg (fun hc => hseen (contains_mem.mp hc))]
    exact List.mem_cons_self _ _
  | cons q l1 ih =>
    intro l2 seen hl1 hseen
    rw [List.cons_append, dropDupOrdersAux_cons]
    by_cases hq : seen.contains q.orderId = true
    · rw [if_pos hq]
      exact ih l2 seen (fun q' hq' => hl1 q' (List.mem_cons_of_mem _ hq')) hseen
    · rw [if_neg hq]
      refine List.mem_cons_of_mem _ (ih l2 (q.orderId :: seen)
        (fun q' hq' => hl1 q' (List.mem_cons_of_mem _ hq')) ?_)
      intro hc
      rcases List.mem_cons.mp hc with hc | hc
      · exact hl1 q (List.mem_cons_self _ _) hc.symm
      · exact hseen hc

/-- The order ids surviving deduplication are exactly the first-occurrence
deduplication of the table's order-id column — computed globally, with no
reference to phone numbers. -/
theorem dropDupOrdersAux_ids :
    ∀ (rows : List NRow) (seen : List String),
      (dropDupOrdersAux seen rows).map NRow.orderId =
        firstDedupAux seen (rows.map NRow.orderId) := by
  intro rows
  induction rows with
  | nil => intro seen; rfl
  | cons q rs ih =>
    intro seen
    rw [dropDupOrdersAux_cons, List.map_cons, firstDedupAux_cons]
    by_cases hq : seen.contains q.orderId = true
    · rw [if_pos hq, if_pos hq, ih seen]
    · rw [if_neg hq, if_neg hq, List.map_cons, ih (q.orderId :: seen)]

/-- A phone group none of whose rows survive deduplication receives a
missing (NaN) total, not zero. -/
theorem groupTotal_none {rows : List NRow} {p : String}
    (h : ∀ r ∈ dropDupOrders rows, ¬ r.phone = p) : groupTotal rows p = none := by
  unfold groupTotal
  rw [if_pos (List.filter_eq_nil_iff.mpr (fun r hr => by simpa using h r hr))]

/-! ## C10: global order-id deduplication -/

/-- C10: order-id deduplication is global over the whole table: the
surviving order ids are the first occurrences of the order-id column
(ignoring phones entirely), each survivor is an input row, the first row
carrying a given order id always survives, and a phone group none of whose
rows survive receives a missing total (`none`), not a zero sum. -/
theorem c10_global_dedup (rows : List NRow) (p : String) :
    ((dropDupOrders rows).map NRow.orderId = firstDedup (rows.map NRow.orderId)) ∧
    (((dropDupOrders rows).map NRow.orderId).Nodup) ∧
    (∀ r ∈ dropDupOrders rows, r ∈ rows) ∧
    (∀ (l1 : List NRow) (r : NRow) (l2 : List NRow),
      rows = l1 ++ r :: l2 → (∀ q ∈ l1, ¬ q.orderId = r.orderId) →
      r ∈ dropDupOrders rows) ∧
    ((∀ r ∈ dropDupOrders rows, ¬ r.phone = p) → groupTotal rows p = none) := by
  refine ⟨dropDupOrdersAux_ids rows [], ?_, fun r hr => dropDupOrdersAux_subset rows [] hr,
    fun l1 r l2 heq hl1 => ?_, groupTotal_none⟩
  · show (List.map NRow.orderId (dropDupOrdersAux [] rows)).Nodup
    rw [dropDupOrdersAux_ids rows []]
    exact nodup_firstDedupAux _ []
  · rw [heq]
    exact dropDupOrdersAux_keeps_first r l1 l2 [] hl1 (List.not_mem_nil _)

/-- C10 witness: with order id `"X"` first under phone `"017"` and again
under phone `"016"`, the `"016"` group's total is missing, while the first
phone's group carries the order's total. -/
theorem c10_witness :
    groupTotal (normalizedRows defaultConfig exTableDup) "016" = none ∧
    groupTotal (normalizedRows defaultConfig exTableDup) "017" = some 500 :=
  ⟨(c10_global_dedup (normalizedRows defaultConfig exTableDup) "016").2.2.2.2
    (by decide), by decide⟩

/-! ## C5: grouping invariants -/

/-- Adding a row to an existing group keeps the group's phone. -/
theorem addToGroup_phone (g : Group) (r : NRow) : (addToGroup g r).phone = g.phone := rfl

/-- Unfolding equation for `insertRow` on a cons cell. -/
theorem insertRow_cons (g : Group) (gs : List Group) (r : NRow) :
    insertRow (g :: gs) r =
      if g.phone = r.phone then addToGroup g r :: gs else g :: insertRow gs r := rfl

/-- Routing one row leaves the group keys unchanged when its phone already
has a group, and appends its phone otherwise. -/
theorem insertRow_keys (r : NRow) :
    ∀ gs : List Group,
      (insertRow gs r).map Group.phone =
        if r.phone ∈ gs.map Group.phone then gs.map Group.phone
        else gs.map Group.phone ++ [r.phone] := by
  intro gs
  induction gs with
  | nil => simp [insertRow, mkGroup]
  | cons g gs ih =>
    rw [insertRow_cons]
    by_cases hg : g.phone = r.phone
    · rw [if_pos hg]
      simp only [List.map_cons, addToGroup_phone]
      rw [if_pos (List.mem_cons.mpr (Or.inl hg.symm))]
    · rw [if_neg hg]
      simp only [List.map_cons, ih]
      by_cases hr : r.phone ∈ gs.map Group.phone
      · rw [if_pos hr, if_pos (List.mem_cons_of_mem _ hr)]
      · rw [if_neg hr, if_neg (fun hc => by
          rcases List.mem_cons.mp hc with hc | hc
          · exact hg hc.symm
          · exact hr hc)]
        rfl

/-- Filtering the one-row list `[r]` by a phone test. -/
theorem filter_single_phone (r : NRow) (p : String) :
    [r].filter (fun q => q.phone = p) = if r.phone = p then [r] else [] := by
  by_cases h : r.phone = p
  · simp [List.filter, h]
  · simp [List.filter, h]

/-- Routing one row into a nodup group list preserves the per-group
characterization, extended by the new row. -/
theorem insertRow_char (r : NRow) :
    ∀ (gs : List Group) (rows : List NRow),
      (∀ g ∈ gs, groupChar g rows) →
      ((gs.map Group.phone).Nodup) →
      (r.phone ∉ gs.map Group.phone →
        rows.filter (fun q => q.phone = r.phone) = []) →
      ∀ g2 ∈ insertRow gs r, groupChar g2 (rows ++ [r]) := by
  intro gs
  induction gs with
  | nil =>
    intro rows _ _ hfresh g2 hg2
    have hfil : rows.filter (fun q => q.phone = r.phone) = [] :=
      hfresh (List.not_mem_nil _)
    rcases List.mem_cons.mp hg2 with rfl | hg2
    · refine ⟨?_, ?_, ?_⟩ <;>
        simp [mkGroup, List.filter_append, hfil, filter_single_phone]
    · exact absurd hg2 (List.not_mem_nil g2)
  | cons g gs ih =>
    intro rows hchar hnodup hfresh g2 hg2
    rw [insertRow_cons] at hg2
    by_cases hg : g.phone = r.phone
    · rw [if_pos hg] at hg2
      rcases List.mem_cons.mp hg2 with rfl | hg2
      · obtain ⟨h1, h2, h3⟩ := hchar g (List.mem_cons_self _ _)
        refine ⟨?_, ?_, ?_⟩ <;>
          simp [addToGroup, h1, h2, h3, List.filter_append, filter_single_phone, hg]
      · obtain ⟨h1, h2, h3⟩ := hchar g2 (List.mem_cons_of_mem _ hg2)
        have hne : ¬ r.phone = g2.phone := by
          intro hc
          have hgmem : g2.phone ∈ gs.map Group.phone := List.mem_map_of_mem _ hg2
          rw [← hc, ← hg] at hgmem
          exact (List.nodup_cons.mp (by simpa using hnodup)).1 hgmem
        refine ⟨?_, ?_, ?_⟩ <;>
          simp [h1, h2, h3, List.filter_append, filter_single_phone, hne]
    · rw [if_neg hg] at hg2
      rcases List.mem_cons.mp hg2 with rfl | hg2
      · obtain ⟨h1, h2, h3⟩ := hchar g2 (List.mem_cons_self _ _)
        have hne : ¬ r.phone = g2.phone := fun hc => hg hc.symm
        refine ⟨?_, ?_, ?_⟩ <;>
          simp [h1, h2, h3, List.filter_append, filter_single_phone, hne]
      · refine ih rows (fun g3 hg3 => hchar g3 (List.mem_cons_of_mem _ hg3))
          (List.nodup_cons.mp (by simpa using hnodup)).2 (fun hnm => hfresh ?_) g2 hg2
        intro hc
        rw [List.map_cons] at hc
        rcases List.mem_cons.mp hc with hc2 | hc2
        · exact hg hc2.symm
        · exact hnm hc2

/-- The grouping fold: group keys are the distinct normalized phones in
first-appearance order, and every group carries exactly its phone's rows in
original order. -/
theorem groupRows_spec (rows : List NRow) :
    ((groupRows rows).map Group.phone = firstDedup (rows.map NRow.phone)) ∧
    (∀ g ∈ groupRows rows, groupChar g rows) := by
  induction rows using List.reverseRecOn with
  | nil => exact ⟨rfl, fun g h => absurd h (List.not_mem_nil g)⟩
  | append_singleton rs r ih =>
    obtain ⟨ihk, ihc⟩ := ih
    have hgr : groupRows (rs ++ [r]) = insertRow (groupRows rs) r := by
      simp [groupRows, List.foldl_append]
    have hmemk : r.phone ∈ (groupRows rs).map Group.phone ↔ r.phone ∈ rs.map NRow.phone := by
      rw [ihk]
      constructor
      · intro h
        exact ((mem_firstDedupAux _ []).mp h).1
      · intro h
        exact (mem_firstDedupAux _ []).mpr ⟨h, List.not_mem_nil _⟩
    constructor
    · rw [hgr, insertRow_keys, ihk, List.map_append]
      show _ = firstDedupAux [] (rs.map NRow.phone ++ [r.phone])
      rw [firstDedupAux_append_one]
      by_cases hr : r.phone ∈ rs.map NRow.phone
      · rw [if_pos (mem_firstDedup.mpr hr), if_pos (Or.inr hr), List.append_nil]
        rfl
      · rw [if_neg (fun hc => hr (mem_firstDedup.mp hc)),
          if_neg (fun hc => by
            rcases hc with hc | hc
            · exact List.not_mem_nil _ hc
            · exact hr hc)]
        rfl
    · rw [hgr]
      intro g2 hg2
      refine insertRow_char r (groupRows rs) rs ihc ?_ ?_ g2 hg2
      · rw [ihk]
        exact nodup_firstDedupAux _ []
      · intro hfresh
        have hnm : r.phone ∉ rs.map NRow.phone := fun hc => hfresh (hmemk.mpr hc)
        refine List.filter_eq_nil_iff.mpr (fun q hq hdec => ?_)
        have : q.phone = r.phone := by simpa using hdec
        exact hnm (this ▸ List.mem_map_of_mem NRow.phone hq)

/-- Structure of a successful `process_orders` run. -/
theorem process_ok_inv {cfg : ColumnMap} {t : Table} {out : Grouped}
    (h : process_orders cfg t = .ok out) :
    out = { hasTotalCol := (strippedCols t).contains cfg.order_total_col
            rows := (groupRows (normalizedRows cfg t)).map (fun g =>
              (g, if (strippedCols t).contains cfg.order_total_col then
                    groupTotal (normalizedRows cfg t) g.phone else none)) } := by
  simp only [process_orders] at h
  split at h
  · exact absurd h (by intro hc; injection hc)
  · split at h
    · exact absurd h (by intro hc; injection hc)
    · split at h
      · exact absurd h (by intro hc; injection hc)
      · split at h
        · exact absurd h (by intro hc; injection hc)
        · split at h
          · exact absurd h (by intro hc; injection hc)
          · injection h with h1
            exact h1.symm

/-- C5 (counterexample): a table can pass required-column validation and
still produce no groups at all — with no SKU column mapped, a NaN product
cell reaches `'\n- '.join(x)` unconverted and the aggregation aborts with a
`TypeError`, so the claim's "for every input table that passes validation"
is too strong. -/
theorem c5_validated_crash_counterexample :
    missingRequired defaultConfig tCrash = [] ∧
    process_orders defaultConfig tCrash = .error .typeError ∧
    ∀ out, ¬ process_orders defaultConfig tCrash = .ok out := by
  refine ⟨by decide, by rfl, fun out h => ?_⟩
  rw [show process_orders defaultConfig tCrash = .error .typeError from rfl] at h
  exact Except.noConfusion h

/-- C5 (amended): on every run of `process_orders` that completes without
error (all aggregated columns exist and, with no SKU column mapped, no
product cell is NaN — otherwise the run aborts and produces nothing), the
output has exactly one group per distinct normalized phone (keys are the
distinct phones, without duplicates), every row's phone has its group, and
each group's product/quantity/price arrays are the per-row values of exactly
its phone's rows, in original row order — hence of equal length. -/
theorem c5_grouping_invariant (cfg : ColumnMap) (t : Table) (out : Grouped)
    (h : process_orders cfg t = .ok out) :
    ((out.rows.map (fun pr => pr.1.phone)) =
      firstDedup ((normalizedRows cfg t).map NRow.phone)) ∧
    ((out.rows.map (fun pr => pr.1.phone)).Nodup) ∧
    (∀ r ∈ normalizedRows cfg t,
      r.phone ∈ out.rows.map (fun pr => pr.1.phone)) ∧
    (∀ pr ∈ out.rows,
      pr.1.products =
        ((normalizedRows cfg t).filter (fun q => q.phone = pr.1.phone)).map NRow.product ∧
      pr.1.quantities =
        ((normalizedRows cfg t).filter (fun q => q.phone = pr.1.phone)).map NRow.quantity ∧
      pr.1.prices =
        ((normalizedRows cfg t).filter (fun q => q.phone = pr.1.phone)).map NRow.price ∧
      pr.1.products.length = pr.1.quantities.length ∧
      pr.1.products.length = pr.1.prices.length) := by
  have hout := process_ok_inv h
  subst hout
  obtain ⟨hkeys, hchar⟩ := groupRows_spec (normalizedRows cfg t)
  have hpr : ((groupRows (normalizedRows cfg t)).map (fun g =>
      (g, if (strippedCols t).contains cfg.order_total_col then
            groupTotal (normalizedRows cfg t) g.phone else none))).map
        (fun pr => pr.1.phone) = (groupRows (normalizedRows cfg t)).map Group.phone := by
    rw [List.map_map]
    rfl
  refine ⟨by rw [hpr, hkeys], by rw [hpr, hkeys]; exact nodup_firstDedupAux _ [], ?_, ?_⟩
  · intro r hr
    rw [hpr, hkeys]
    exact (mem_firstDedupAux _ []).mpr ⟨List.mem_map_of_mem _ hr, List.not_mem_nil _⟩
  · intro pr hpr2
    simp only [List.mem_map] at hpr2
    obtain ⟨g, hg, rfl⟩ := hpr2
    obtain ⟨h1, h2, h3⟩ := hchar g hg
    exact ⟨h1, h2, h3, by rw [h1, h2, List.length_map, List.length_map],
      by rw [h1, h3, List.length_map, List.length_map]⟩

/-- C5 witness: the two-row example table groups into one record whose
product array is its phone's rows in order, with aligned lengths. -/
theorem c5_witness :
    gSmall.products =
      ((normalizedRows defaultConfig tSmall).filter
        (fun q => q.phone = gSmall.phone)).map NRow.product ∧
    gSmall.products.length = gSmall.quantities.length :=
  ⟨((c5_grouping_invariant defaultConfig tSmall outSmall (by rfl)).2.2.2
      (gSmall, some 500) (by decide)).1,
   ((c5_grouping_invariant defaultConfig tSmall outSmall (by rfl)).2.2.2
      (gSmall, some 500) (by decide)).2.2.2.1⟩

/-! ## C1: total reconciliation -/

/-- C1 (counterexample): on the two-phone shared-order-id table the `"016"`
group's reconciled total is a missing value, while the claim prescribes the
(empty) sum `0` of the deduplicated rows restricted to that phone. -/
theorem c1_counterexample :
    procPhoneTotals defaultConfig exTableDup = some [("017", some 500), ("016", none)] ∧
    c1ClaimTotal (normalizedRows defaultConfig exTableDup) "016" = 0 ∧
    ¬ ((none : Option ℤ) =
        some (c1ClaimTotal (normalizedRows defaultConfig exTableDup) "016")) := by
  refine ⟨by decide, by decide, by decide⟩

/-- C1 (amended): when the order-total column is present, each output
group's total equals the sum of the order-total values of the rows remaining
after global order-id deduplication restricted to that group's phone,
whenever at least one such row remains; when none remains the total is a
missing value (NaN), not the empty sum `0`. -/
theorem c1_total_reconciliation (cfg : ColumnMap) (t : Table) (out : Grouped)
    (h : process_orders cfg t = .ok out) (ht : out.hasTotalCol = true) :
    ∀ pr ∈ out.rows,
      (¬ ((dropDupOrders (normalizedRows cfg t)).filter
            (fun q => q.phone = pr.1.phone)) = [] →
        pr.2 = some (c1ClaimTotal (normalizedRows cfg t) pr.1.phone)) ∧
      (((dropDupOrders (normalizedRows cfg t)).filter
            (fun q => q.phone = pr.1.phone)) = [] → pr.2 = none) := by
  have hout := process_ok_inv h
  subst hout
  simp only at ht
  intro pr hpr
  simp only [List.mem_map] at hpr
  obtain ⟨g, hg, rfl⟩ := hpr
  constructor
  · intro hne
    show (if (strippedCols t).contains cfg.order_total_col then
        groupTotal (normalizedRows cfg t) g.phone else none) = _
    rw [if_pos ht]
    unfold groupTotal
    rw [if_neg hne]
    rfl
  · intro he
    show (if (strippedCols t).contains cfg.order_total_col then
        groupTotal (normalizedRows cfg t) g.phone else none) = _
    rw [if_pos ht]
    unfold groupTotal
    rw [if_pos he]

/-- C1 witness: on the example table the single group's total equals the
reconciled sum — `500`, once, not `1000` — as computed by the claim's
dedup-then-restrict-then-sum description. -/
theorem c1_witness :
    ((gSmall, some (500 : ℤ)) : Group × Option ℤ).2 =
      some (c1ClaimTotal (normalizedRows defaultConfig tSmall) gSmall.phone) ∧
    c1ClaimTotal (normalizedRows defaultConfig tSmall) gSmall.phone = 500 :=
  ⟨((c1_total_reconciliation defaultConfig tSmall outSmall (by rfl) (by decide)
      (gSmall, some 500) (by decide)).1 (by decide)),
   by decide⟩

/-! ## C3: character-level case-mapping lemmas -/

/-- Characters with equal code points are equal. -/
theorem char_toNat_inj {a b : Char} (h : a.toNat = b.toNat) : a = b := by
  have := congrArg Char.ofNat h
  rwa [Char.ofNat_toNat, Char.ofNat_toNat] at this

/-- Code point of `Char.ofNat` below the surrogate range. -/
theorem toNat_ofNat_valid {n : Nat} (h : n < 55296) : (Char.ofNat n).toNat = n := by
  have hv : n.isValidChar := Or.inl h
  simp [Char.ofNat, dif_pos hv, Char.toNat, Char.ofNatAux, UInt32.ofNat', UInt32.toNat,
    BitVec.toNat_ofNatLt]

/-- Lower-casing an upper-case letter adds 32 to the code point. -/
theorem toNat_lowerC {c : Char} (h : 65 ≤ c.toNat ∧ c.toNat ≤ 90) :
    (lowerC c).toNat = c.toNat + 32 := by
  unfold lowerC Char.toLower
  rw [if_pos h]
  exact toNat_ofNat_valid (by omega)

/-- Lower-casing fixes everything outside the upper-case range. -/
theorem lowerC_eq_self {c : Char} (h : ¬ (65 ≤ c.toNat ∧ c.toNat ≤ 90)) :
    lowerC c = c := by
  unfold lowerC Char.toLower
  exact if_neg h

/-- Upper-casing a lower-case letter subtracts 32 from the code point. -/
theorem toNat_upperC {c : Char} (h : 97 ≤ c.toNat ∧ c.toNat ≤ 122) :
    (upperC c).toNat = c.toNat - 32 := by
  unfold upperC Char.toUpper
  rw [if_pos h]
  exact toNat_ofNat_valid (by omega)

/-- Upper-casing fixes everything outside the lower-case range. -/
theorem upperC_eq_self {c : Char} (h : ¬ (97 ≤ c.toNat ∧ c.toNat ≤ 122)) :
    upperC c = c := by
  unfold upperC Char.toUpper
  exact if_neg h

/-- Lower-casing is idempotent. -/
theorem lowerC_lowerC (c : Char) : lowerC (lowerC c) = lowerC c := by
  by_cases h : 65 ≤ c.toNat ∧ c.toNat ≤ 90
  · have h2 := toNat_lowerC h
    exact lowerC_eq_self (by omega)
  · rw [lowerC_eq_self h, lowerC_eq_self h]

/-- Upper-casing is idempotent. -/
theorem upperC_upperC (c : Char) : upperC (upperC c) = upperC c := by
  by_cases h : 97 ≤ c.toNat ∧ c.toNat ≤ 122
  · have h2 := toNat_upperC h
    exact upperC_eq_self (by omega)
  · rw [upperC_eq_self h, upperC_eq_self h]

/-- Upper-casing after lower-casing the same letter restores it only through
case ranges; all we need: lower-casing an already-lower-cased char. -/
theorem lowerC_upperC_toNat (c : Char) :
    (lowerC c).toNat = c.toNat ∨ (lowerC c).toNat = c.toNat + 32 := by
  by_cases h : 65 ≤ c.toNat ∧ c.toNat ≤ 90
  · exact Or.inr (toNat_lowerC h)
  · exact Or.inl (by rw [lowerC_eq_self h])

/-- A character whose code point is below 65 is produced by lower-casing
only from itself. -/
theorem lowerC_eq_special {d : Char} (hd : d.toNat < 65) {c : Char} :
    lowerC c = d ↔ c = d := by
  constructor
  · intro h
    by_cases hc : 65 ≤ c.toNat ∧ c.toNat ≤ 90
    · have := toNat_lowerC hc
      rw [h] at this
      omega
    · rwa [lowerC_eq_self hc] at h
  · intro h
    subst h
    exact lowerC_eq_self (by omega)

/-- A character whose code point is below 65 is produced by upper-casing
only from itself. -/
theorem upperC_eq_special {d : Char} (hd : d.toNat < 65) {c : Char} :
    upperC c = d ↔ c = d := by
  constructor
  · intro h
    by_cases hc : 97 ≤ c.toNat ∧ c.toNat ≤ 122
    · have := toNat_upperC hc
      rw [h] at this
      omega
    · rwa [upperC_eq_self hc] at h
  · intro h
    subst h
    exact upperC_eq_self (by omega)

/-- The word-character class in terms of code points. -/
theorem wordChar_iff (c : Char) :
    wordChar c = true ↔
      ((65 ≤ c.toNat ∧ c.toNat ≤ 90) ∨ (97 ≤ c.toNat ∧ c.toNat ≤ 122) ∨
       (48 ≤ c.toNat ∧ c.toNat ≤ 57) ∨ c.toNat = 95) := by
  have h95 : ('_' : Char).toNat = 95 := by decide
  constructor
  · intro h
    simp only [wordChar, Bool.or_eq_true, Char.isAlphanum, Char.isAlpha, Char.isUpper,
      Char.isLower, Char.isDigit, Bool.and_eq_true, decide_eq_true_eq,
      UInt32.le_def, BitVec.le_def] at h
    rcases h with ((⟨h1, h2⟩ | ⟨h1, h2⟩) | ⟨h1, h2⟩) | h
    · exact Or.inl ⟨h1, h2⟩
    · exact Or.inr (Or.inl ⟨h1, h2⟩)
    · exact Or.inr (Or.inr (Or.inl ⟨h1, h2⟩))
    · exact Or.inr (Or.inr (Or.inr (by rw [← h95, h])))
  · intro h
    simp only [wordChar, Bool.or_eq_true, Char.isAlphanum, Char.isAlpha, Char.isUpper,
      Char.isLower, Char.isDigit, Bool.and_eq_true, decide_eq_true_eq,
      UInt32.le_def, BitVec.le_def]
    rcases h with h | h | h | h
    · exact Or.inl (Or.inl (Or.inl ⟨h.1, h.2⟩))
    · exact Or.inl (Or.inl (Or.inr ⟨h.1, h.2⟩))
    · exact Or.inl (Or.inr ⟨h.1, h.2⟩)
    · exact Or.inr (char_toNat_inj (by rw [h, h95]))

/-- Lower-casing preserves the word-character class. -/
theorem wordChar_lowerC (c : Char) : wordChar (lowerC c) = wordChar c := by
  by_cases h : 65 ≤ c.toNat ∧ c.toNat ≤ 90
  · have h2 := toNat_lowerC h
    have hw1 : wordChar (lowerC c) = true := (wordChar_iff _).mpr (Or.inr (Or.inl (by omega)))
    have hw2 : wordChar c = true := (wordChar_iff _).mpr (Or.inl h)
    rw [hw1, hw2]
  · rw [lowerC_eq_self h]

/-- Upper-casing preserves the word-character class. -/
theorem wordChar_upperC (c : Char) : wordChar (upperC c) = wordChar c := by
  by_cases h : 97 ≤ c.toNat ∧ c.toNat ≤ 122
  · have h2 := toNat_upperC h
    have hw1 : wordChar (upperC c) = true := (wordChar_iff _).mpr (Or.inl (by omega))
    have hw2 : wordChar c = true := (wordChar_iff _).mpr (Or.inr (Or.inl h))
    rw [hw1, hw2]
  · rw [upperC_eq_self h]

/-- The whitespace class in terms of code points. -/
theorem isWS_iff (c : Char) :
    isWS c = true ↔ (c.toNat = 32 ∨ c.toNat = 9 ∨ c.toNat = 13 ∨ c.toNat = 10) := by
  constructor
  · intro h
    simp only [isWS, Char.isWhitespace, Bool.or_eq_true, decide_eq_true_eq] at h
    rcases h with ((h | h) | h) | h <;> rw [h] <;> simp [Char.toNat]
  · intro h
    simp only [isWS, Char.isWhitespace, Bool.or_eq_true, decide_eq_true_eq]
    rcases h with h | h | h | h
    · exact Or.inl (Or.inl (Or.inl (char_toNat_inj (by rw [h]; rfl))))
    · exact Or.inl (Or.inl (Or.inr (char_toNat_inj (by rw [h]; rfl))))
    · exact Or.inl (Or.inr (char_toNat_inj (by rw [h]; rfl)))
    · exact Or.inr (char_toNat_inj (by rw [h]; rfl))

/-- Lower-casing preserves non-whitespace. -/
theorem isWS_lowerC (c : Char) : isWS (lowerC c) = isWS c := by
  by_cases h : 65 ≤ c.toNat ∧ c.toNat ≤ 90
  · have h2 := toNat_lowerC h
    have hw1 : isWS (lowerC c) = false := by
      cases hb : isWS (lowerC c) with
      | false => rfl
      | true => exact absurd ((isWS_iff _).mp hb) (by omega)
    have hw2 : isWS c = false := by
      cases hb : isWS c with
      | false => rfl
      | true => exact absurd ((isWS_iff _).mp hb) (by omega)
    rw [hw1, hw2]
  · rw [lowerC_eq_self h]

/-- Upper-casing preserves non-whitespace. -/
theorem isWS_upperC (c : Char) : isWS (upperC c) = isWS c := by
  by_cases h : 97 ≤ c.toNat ∧ c.toNat ≤ 122
  · have h2 := toNat_upperC h
    have hw1 : isWS (upperC c) = false := by
      cases hb : isWS (upperC c) with
      | false => rfl
      | true => exact absurd ((isWS_iff _).mp hb) (by omega)
    have hw2 : isWS c = false := by
      cases hb : isWS c with
      | false => rfl
      | true => exact absurd ((isWS_iff _).mp hb) (by omega)
    rw [hw1, hw2]
  · rw [upperC_eq_self h]

/-! ## C3: `str.capitalize` lemmas -/

/-- Capitalizing keeps (non-)emptiness. -/
theorem pyCap_eq_nil {w : List Char} : pyCapitalizeL w = [] ↔ w = [] := by
  cases w <;> simp [pyCapitalizeL]

/-- Capitalizing is idempotent. -/
theorem cap_idem (w : List Char) :
    pyCapitalizeL (pyCapitalizeL w) = pyCapitalizeL w := by
  cases w with
  | nil => rfl
  | cons c cs =>
    simp only [pyCapitalizeL, upperC_upperC, List.map_map]
    congr 1
    exact List.map_congr_left (fun a _ => lowerC_lowerC a)

/-- Characters below code point 65 pass through capitalization unchanged and
are never created by it. -/
theorem mem_cap_special {d : Char} (hd : d.toNat < 65) {w : List Char} :
    d ∈ pyCapitalizeL w ↔ d ∈ w := by
  cases w with
  | nil => rfl
  | cons c cs =>
    simp only [pyCapitalizeL, List.mem_cons, List.mem_map]
    constructor
    · rintro (h | ⟨x, hx, hxd⟩)
      · exact Or.inl ((upperC_eq_special hd).mp h.symm).symm
      · exact Or.inr (((lowerC_eq_special hd).mp hxd) ▸ hx)
    · rintro (h | h)
      · exact Or.inl (((upperC_eq_special hd).mpr h.symm).symm)
      · exact Or.inr ⟨d, h, (lowerC_eq_special hd).mpr rfl⟩

/-- Capitalizing a whitespace-free word leaves it whitespace-free. -/
theorem cap_WSfree {w : List Char} (h : ∀ c ∈ w, isWS c = false) :
    ∀ c ∈ pyCapitalizeL w, isWS c = false := by
  cases w with
  | nil => intro c hc; exact absurd hc (List.not_mem_nil c)
  | cons a as =>
    intro c hc
    simp only [pyCapitalizeL, List.mem_cons, List.mem_map] at hc
    rcases hc with rfl | ⟨x, hx, rfl⟩
    · rw [isWS_upperC]
      exact h a (List.mem_cons_self _ _)
    · rw [isWS_lowerC]
      exact h x (List.mem_cons_of_mem _ hx)

/-- The last element of a mapped list. -/
theorem getLast?_map_eq (f : Char → Char) :
    ∀ l : List Char, (l.map f).getLast? = l.getLast?.map f := by
  intro l
  induction l with
  | nil => rfl
  | cons a as ih =>
    cases as with
    | nil => rfl
    | cons b bs =>
      simp only [List.map_cons] at ih ⊢
      rw [List.getLast?_cons_cons, List.getLast?_cons_cons, ih]

/-- Capitalizing preserves a trailing period (and its absence). -/
theorem endsDot_cap (w : List Char) : endsDot (pyCapitalizeL w) = endsDot w := by
  have hdot : ('.' : Char).toNat < 65 := by decide
  cases w with
  | nil => rfl
  | cons c cs =>
    cases cs with
    | nil =>
      simp only [endsDot]
      apply decide_eq_decide.mpr
      show ([upperC c].getLast? = some '.') ↔ (([c].getLast? : Option Char) = some '.')
      simp only [List.getLast?_singleton, Option.some.injEq]
      exact upperC_eq_special hdot
    | cons d ds =>
      simp only [endsDot]
      apply decide_eq_decide.mpr
      show ((upperC c :: (d :: ds).map lowerC).getLast? = some '.') ↔
        (((c :: d :: ds).getLast? : Option Char) = some '.')
      rw [List.map_cons, List.getLast?_cons_cons, List.getLast?_cons_cons,
        show (lowerC d :: ds.map lowerC) = (d :: ds).map lowerC from rfl,
        getLast?_map_eq]
      cases hlast : (d :: ds).getLast? with
      | none => simp at hlast
      | some x =>
        show (some (lowerC x) = some '.') ↔ _
        simp only [Option.some.injEq]
        exact lowerC_eq_special hdot

/-- Double lower-casing maps like single lower-casing. -/
theorem map_lowerC_lowerC (l : List Char) :
    l.map (lowerC ∘ lowerC) = l.map lowerC :=
  List.map_congr_left (fun a _ => lowerC_lowerC a)

/-- Capitalizing an already-capitalized word with a trailing period appended
changes nothing. -/
theorem cap_append_dot (q : List Char) :
    pyCapitalizeL (pyCapitalizeL q ++ ['.']) = pyCapitalizeL q ++ ['.'] := by
  have hdotfix : lowerC '.' = '.' := lowerC_eq_self (by decide)
  cases q with
  | nil =>
    show [upperC '.'] = ['.']
    rw [upperC_eq_self (by decide)]
  | cons c cs =>
    show upperC (upperC c) :: (cs.map lowerC ++ ['.']).map lowerC = _
    rw [List.map_append, upperC_upperC, List.map_map, map_lowerC_lowerC]
    have : (['.'].map lowerC) = ['.'] := by
      rw [List.map_cons, hdotfix]
      rfl
    rw [this]
    rfl

/-! ## C3: the dot-wordchar invariant -/

/-- The invariant holds for any tail. -/
theorem okDW_tail {c : Char} {l : List Char} (h : okDW (c :: l)) : okDW l := by
  cases l with
  | nil => trivial
  | cons d rest => exact h.2

/-- Build the invariant from a head condition and the tail invariant. -/
theorem okDW_cons {c : Char} {l : List Char}
    (hh : ∀ d, l.head? = some d → c = '.' → wordChar d = false)
    (ht : okDW l) : okDW (c :: l) := by
  cases l with
  | nil => trivial
  | cons d rest => exact ⟨hh d rfl, ht⟩

/-- The head condition of the invariant. -/
theorem okDW_head {c : Char} {l : List Char} (h : okDW (c :: l)) :
    ∀ d, l.head? = some d → c = '.' → wordChar d = false := by
  cases l with
  | nil => intro d hd; exact absurd hd (by simp)
  | cons e rest => intro d hd hc; cases hd; exact h.1 hc

/-- A list of non-word characters satisfies the invariant. -/
theorem okDW_of_nonword : ∀ {l : List Char}, (∀ c ∈ l, wordChar c = false) → okDW l := by
  intro l
  induction l with
  | nil => intro _; trivial
  | cons c cs ih =>
    intro h
    refine okDW_cons (fun d hd _ => ?_) (ih (fun a ha => h a (List.mem_cons_of_mem _ ha)))
    exact h d (List.mem_cons_of_mem _ (List.mem_of_mem_head? hd))

/-- Glue the invariant across an append, given the boundary pair. -/
theorem okDW_append : ∀ {a b : List Char}, okDW a → okDW b →
    (∀ ca cb, a.getLast? = some ca → b.head? = some cb → ca = '.' → wordChar cb = false) →
    okDW (a ++ b) := by
  intro a
  induction a with
  | nil => intro b _ hb _; exact hb
  | cons c cs ih =>
    intro b ha hb hbound
    cases cs with
    | nil =>
      refine okDW_cons (fun d hd hc => ?_) hb
      exact hbound c d rfl hd hc
    | cons e rest =>
      refine okDW_cons (fun d hd hc => ?_)
        (ih (okDW_tail ha) hb (fun ca cb hca hcb => hbound ca cb (by
          rw [List.getLast?_cons_cons]
          exact hca) hcb))
      have hde : e = d := by simpa using hd
      subst hde
      exact (ha.1 hc)

/-- Lower-casing a list preserves the invariant. -/
theorem okDW_map_lowerC : ∀ {l : List Char}, okDW l → okDW (l.map lowerC) := by
  have hdot : ('.' : Char).toNat < 65 := by decide
  intro l
  induction l with
  | nil => intro _; trivial
  | cons c cs ih =>
    intro h
    refine okDW_cons (fun d hd hc => ?_) (ih (okDW_tail h))
    cases cs with
    | nil => exact absurd hd (by simp)
    | cons e rest =>
      have hde : lowerC e = d := by simpa using hd
      subst hde
      rw [wordChar_lowerC]
      exact h.1 ((lowerC_eq_special hdot).mp hc)

/-- Capitalizing preserves the invariant. -/
theorem okDW_cap {w : List Char} (h : okDW w) : okDW (pyCapitalizeL w) := by
  have hdot : ('.' : Char).toNat < 65 := by decide
  cases w with
  | nil => trivial
  | cons c cs =>
    refine okDW_cons (fun d hd hc => ?_) (okDW_map_lowerC (okDW_tail h))
    cases cs with
    | nil => exact absurd hd (by simp)
    | cons e rest =>
      have hde : lowerC e = d := by simpa using hd
      subst hde
      rw [wordChar_lowerC]
      exact h.1 ((upperC_eq_special hdot).mp hc)

/-! ## C3: split and join lemmas -/

/-- Unfolding equation of `splitP` on a cons cell. -/
theorem splitP_cons (p : Char → Bool) (c : Char) (cs : List Char) :
    splitP p (c :: cs) =
      if p c then [] :: splitP p cs
      else (c :: (splitP p cs).headI) :: (splitP p cs).tail := rfl

/-- A split is never the empty list of segments. -/
theorem splitP_ne_nil (p : Char → Bool) : ∀ l, splitP p l ≠ [] := by
  intro l
  cases l with
  | nil => simp [splitP]
  | cons c cs =>
    rw [splitP_cons]
    split <;> simp

/-- The default head of a nonempty list is a member. -/
theorem headI_mem_of_ne_nil {α : Type} [Inhabited α] {l : List α} (h : l ≠ []) :
    l.headI ∈ l := by
  cases l with
  | nil => exact absurd rfl h
  | cons a as => exact List.mem_cons_self _ _

/-- Characters of segments come from the split list. -/
theorem mem_splitP_sub (p : Char → Bool) :
    ∀ (l : List Char), ∀ w ∈ splitP p l, ∀ c ∈ w, c ∈ l := by
  intro l
  induction l with
  | nil =>
    intro w hw c hc
    simp only [splitP, List.mem_singleton] at hw
    subst hw
    exact absurd hc (List.not_mem_nil c)
  | cons a as ih =>
    intro w hw c hc
    rw [splitP_cons] at hw
    by_cases hpa : p a = true
    · rw [if_pos hpa] at hw
      rcases List.mem_cons.mp hw with rfl | hw
      · exact absurd hc (List.not_mem_nil c)
      · exact List.mem_cons_of_mem _ (ih w hw c hc)
    · rw [if_neg hpa] at hw
      rcases List.mem_cons.mp hw with rfl | hw
      · rcases List.mem_cons.mp hc with rfl | hc
        · exact List.mem_cons_self _ _
        · refine List.mem_cons_of_mem _ (ih _ ?_ c hc)
          exact headI_mem_of_ne_nil (splitP_ne_nil p as)
      · exact List.mem_cons_of_mem _ (ih w (List.mem_of_mem_tail hw) c hc)

/-- Segments contain no separator characters. -/
theorem splitP_sep_false (p : Char → Bool) :
    ∀ (l : List Char), ∀ w ∈ splitP p l, ∀ c ∈ w, p c = false := by
  intro l
  induction l with
  | nil =>
    intro w hw c hc
    simp only [splitP, List.mem_singleton] at hw
    subst hw
    exact absurd hc (List.not_mem_nil c)
  | cons a as ih =>
    intro w hw c hc
    rw [splitP_cons] at hw
    by_cases hpa : p a = true
    · rw [if_pos hpa] at hw
      rcases List.mem_cons.mp hw with rfl | hw
      · exact absurd hc (List.not_mem_nil c)
      · exact ih w hw c hc
    · rw [if_neg hpa] at hw
      rcases List.mem_cons.mp hw with rfl | hw
      · rcases List.mem_cons.mp hc with rfl | hc
        · exact Bool.not_eq_true _ ▸ (by simpa using hpa)
        · exact ih _ (headI_mem_of_ne_nil (splitP_ne_nil p as)) c hc
      · exact ih w (List.mem_of_mem_tail hw) c hc

/-- The head of a nonempty list survives an append. -/
theorem headI_append {A : List (List Char)} (h : A ≠ []) (B : List (List Char)) :
    (A ++ B).headI = A.headI := by
  cases A with
  | nil => exact absurd rfl h
  | cons a as => rfl

/-- The tail of a nonempty list distributes over an append. -/
theorem tail_append {A : List (List Char)} (h : A ≠ []) (B : List (List Char)) :
    (A ++ B).tail = A.tail ++ B := by
  cases A with
  | nil => exact absurd rfl h
  | cons a as => rfl

/-- Splitting at a separator occurrence splits the surrounding parts
independently. -/
theorem splitP_append_sep (p : Char → Bool) {c : Char} (hc : p c = true) :
    ∀ (a b : List Char), splitP p (a ++ c :: b) = splitP p a ++ splitP p b := by
  intro a
  induction a with
  | nil =>
    intro b
    rw [List.nil_append, splitP_cons, if_pos hc]
    rfl
  | cons x a ih =>
    intro b
    rw [List.cons_append, splitP_cons, splitP_cons]
    by_cases hx : p x = true
    · rw [if_pos hx, if_pos hx, ih b, List.cons_append]
    · rw [if_neg hx, if_neg hx, ih b, headI_append (splitP_ne_nil p a),
        tail_append (splitP_ne_nil p a), List.cons_append]

/-- A list without separators is a single segment. -/
theorem splitP_nosep (p : Char → Bool) :
    ∀ (l : List Char), (∀ c ∈ l, p c = false) → splitP p l = [l] := by
  intro l
  induction l with
  | nil => intro _; rfl
  | cons c cs ih =>
    intro h
    rw [splitP_cons, if_neg (by simp [h c (List.mem_cons_self _ _)]),
      ih (fun a ha => h a (List.mem_cons_of_mem _ ha))]
    rfl

/-- A list containing a separator splits into at least two segments. -/
theorem splitP_length_ge2 (p : Char → Bool) :
    ∀ (l : List Char), (∃ c ∈ l, p c = true) → 2 ≤ (splitP p l).length := by
  intro l
  induction l with
  | nil =>
    rintro ⟨c, hc, _⟩
    exact absurd hc (List.not_mem_nil c)
  | cons a as ih =>
    rintro ⟨c, hc, hpc⟩
    rw [splitP_cons]
    by_cases hpa : p a = true
    · rw [if_pos hpa]
      have := splitP_ne_nil p as
      have hlen : 1 ≤ (splitP p as).length := List.length_pos.mpr this
      simp only [List.length_cons]
      omega
    · rw [if_neg hpa]
      have hcas : c ∈ as := by
        rcases List.mem_cons.mp hc with rfl | h
        · exact absurd hpc (by simp [hpa])
        · exact h
      have h2 := ih ⟨c, hcas, hpc⟩
      simp only [List.length_cons, List.length_tail]
      omega

/-- The head character of the first segment is the head of the list. -/
theorem splitP_headI_head (p : Char → Bool) :
    ∀ (l : List Char) (c : Char), (splitP p l).headI.head? = some c → l.head? = some c := by
  intro l c h
  cases l with
  | nil => simp [splitP] at h
  | cons a as =>
    rw [splitP_cons] at h
    by_cases hpa : p a = true
    · rw [if_pos hpa] at h
      simp at h
    · rw [if_neg hpa] at h
      simp only [List.headI_cons, List.head?_cons, Option.some.injEq] at h
      rw [List.head?_cons, h]

/-- Each segment of a split inherits the dot-wordchar invariant. -/
theorem splitP_okDW (p : Char → Bool) :
    ∀ (l : List Char), okDW l → ∀ w ∈ splitP p l, okDW w := by
  intro l
  induction l with
  | nil =>
    intro _ w hw
    simp only [splitP, List.mem_singleton] at hw
    subst hw
    trivial
  | cons a as ih =>
    intro hok w hw
    rw [splitP_cons] at hw
    by_cases hpa : p a = true
    · rw [if_pos hpa] at hw
      rcases List.mem_cons.mp hw with rfl | hw
      · trivial
      · exact ih (okDW_tail hok) w hw
    · rw [if_neg hpa] at hw
      rcases List.mem_cons.mp hw with rfl | hw
      · refine okDW_cons (fun d hd hc => ?_)
          (ih (okDW_tail hok) _ (headI_mem_of_ne_nil (splitP_ne_nil p as)))
        exact okDW_head hok d (splitP_headI_head p as d hd) hc
      · exact ih (okDW_tail hok) w (List.mem_of_mem_tail hw)

/-- When the list does not end in a separator, neither segment list ends in
an empty segment. -/
theorem splitP_getLast_ne (p : Char → Bool) :
    ∀ (l : List Char), l ≠ [] → (∀ c, l.getLast? = some c → p c = false) →
      ∀ s, (splitP p l).getLast? = some s → s ≠ [] := by
  intro l
  induction l with
  | nil => intro h; exact absurd rfl h
  | cons c cs ih =>
    intro _ hlast s hs
    cases cs with
    | nil =>
      have hpc : p c = false := hlast c rfl
      rw [splitP_cons, if_neg (by simp [hpc])] at hs
      simp only [splitP] at hs
      simp only [List.headI_cons, List.tail_cons, List.getLast?_singleton,
        Option.some.injEq] at hs
      subst hs
      simp
    | cons d rest =>
      have hlast2 : ∀ a, (d :: rest).getLast? = some a → p a = false := by
        intro a ha
        exact hlast a (by rw [List.getLast?_cons_cons]; exact ha)
      rw [splitP_cons] at hs
      by_cases hpc : p c = true
      · rw [if_pos hpc] at hs
        obtain ⟨w, ws, hws⟩ := List.exists_cons_of_ne_nil (splitP_ne_nil p (d :: rest))
        rw [hws] at hs
        rw [List.getLast?_cons_cons] at hs
        exact ih (by simp) hlast2 s (by rw [hws]; exact hs)
      · rw [if_neg hpc] at hs
        obtain ⟨w, ws, hws⟩ := List.exists_cons_of_ne_nil (splitP_ne_nil p (d :: rest))
        rw [hws] at hs
        cases ws with
        | nil =>
          simp only [List.headI_cons, List.tail_cons, List.getLast?_singleton,
            Option.some.injEq] at hs
          subst hs
          simp
        | cons w2 ws2 =>
          simp only [List.headI_cons, List.tail_cons] at hs
          rw [List.getLast?_cons_cons] at hs
          refine ih (by simp) hlast2 s ?_
          rw [hws, List.getLast?_cons_cons]
          exact hs

/-- Unfolding equation of `joinSep` with two or more pieces. -/
theorem joinSep_cons₂ (sep : List Char) (a b : List Char) (l : List (List Char)) :
    joinSep sep (a :: b :: l) = a ++ sep ++ joinSep sep (b :: l) := rfl

/-- Characters of a join come from the pieces or the separator. -/
theorem mem_joinSep {sep : List Char} {c : Char} :
    ∀ {ls : List (List Char)}, c ∈ joinSep sep ls → (∃ l ∈ ls, c ∈ l) ∨ c ∈ sep := by
  intro ls
  induction ls with
  | nil => intro h; exact absurd h (List.not_mem_nil c)
  | cons a l ih =>
    cases l with
    | nil =>
      intro h
      exact Or.inl ⟨a, List.mem_cons_self _ _, h⟩
    | cons b l2 =>
      intro h
      rw [joinSep_cons₂] at h
      rcases List.mem_append.mp h with h | h
      · rcases List.mem_append.mp h with h | h
        · exact Or.inl ⟨a, List.mem_cons_self _ _, h⟩
        · exact Or.inr h
      · rcases ih h with ⟨w, hw, hcw⟩ | h
        · exact Or.inl ⟨w, List.mem_cons_of_mem _ hw, hcw⟩
        · exact Or.inr h

/-- With at least two pieces, the separator's characters appear in the
join. -/
theorem joinSep_sep_mem {sep : List Char} {c : Char} (hc : c ∈ sep)
    (a b : List Char) (l : List (List Char)) : c ∈ joinSep sep (a :: b :: l) := by
  rw [joinSep_cons₂]
  exact List.mem_append_left _ (List.mem_append_right _ hc)

/-- Joining distributes over an append of nonempty piece lists. -/
theorem joinSep_append (sep : List Char) :
    ∀ (xs ys : List (List Char)), xs ≠ [] → ys ≠ [] →
      joinSep sep (xs ++ ys) = joinSep sep xs ++ sep ++ joinSep sep ys := by
  intro xs
  induction xs with
  | nil => intro ys h _; exact absurd rfl h
  | cons x xs ih =>
    intro ys _ hys
    cases xs with
    | nil =>
      obtain ⟨y, ys2, rfl⟩ := List.exists_cons_of_ne_nil hys
      rfl
    | cons x2 xs2 =>
      show joinSep sep (x :: ((x2 :: xs2) ++ ys)) = _
      obtain ⟨y, ys2, rfl⟩ := List.exists_cons_of_ne_nil hys
      rw [show ((x2 :: xs2) ++ (y :: ys2) : List (List Char)) =
          x2 :: (xs2 ++ y :: ys2) from rfl, joinSep_cons₂,
        show (x2 : List Char) :: (xs2 ++ y :: ys2) = (x2 :: xs2) ++ (y :: ys2) from rfl,
        ih (y :: ys2) (by simp) (by simp), joinSep_cons₂]
      simp [List.append_assoc]

/-- Joining the piecewise joins equals joining the flattened pieces, for
nonempty piece lists. -/
theorem joinSep_flatten (sep : List Char) :
    ∀ (lss : List (List (List Char))), (∀ l ∈ lss, l ≠ []) →
      joinSep sep (lss.map (joinSep sep)) = joinSep sep lss.flatten := by
  intro lss
  induction lss with
  | nil => intro _; rfl
  | cons l lss ih =>
    intro h
    cases lss with
    | nil =>
      show joinSep sep [joinSep sep l] = joinSep sep (l ++ [])
      rw [List.append_nil]
      rfl
    | cons l2 lss2 =>
      have hl : l ≠ [] := h l (List.mem_cons_self _ _)
      have hl2ne : l2 ≠ [] := h l2 (List.mem_cons_of_mem _ (List.mem_cons_self _ _))
      have hflat : (l2 :: lss2).flatten ≠ [] := by
        obtain ⟨a, as, rfl⟩ := List.exists_cons_of_ne_nil hl2ne
        simp [List.flatten]
      show joinSep sep (joinSep sep l :: joinSep sep l2 :: List.map (joinSep sep) lss2) = _
      rw [joinSep_cons₂,
        show (joinSep sep l2 :: List.map (joinSep sep) lss2) =
          List.map (joinSep sep) (l2 :: lss2) from rfl,
        ih (fun x hx => h x (List.mem_cons_of_mem _ hx)),
        show (l :: l2 :: lss2).flatten = l ++ (l2 :: lss2).flatten from rfl,
        joinSep_append sep l ((l2 :: lss2).flatten) hl hflat]

/-- Splitting a separator-join recovers the pieces when no piece contains
the separator. -/
theorem splitP_joinSep_inv {p : Char → Bool} {s : Char} (hs : p s = true) :
    ∀ (parts : List (List Char)), parts ≠ [] →
      (∀ q ∈ parts, ∀ c ∈ q, p c = false) →
      splitP p (joinSep [s] parts) = parts := by
  intro parts
  induction parts with
  | nil => intro h _; exact absurd rfl h
  | cons q parts ih =>
    intro _ hfree
    cases parts with
    | nil =>
      show splitP p q = [q]
      exact splitP_nosep p q (hfree q (List.mem_cons_self _ _))
    | cons q2 parts2 =>
      rw [joinSep_cons₂,
        show (q ++ [s]) ++ joinSep [s] (q2 :: parts2) =
          q ++ s :: joinSep [s] (q2 :: parts2) by simp,
        splitP_append_sep p hs,
        splitP_nosep p q (hfree q (List.mem_cons_self _ _)),
        ih (by simp) (fun x hx => hfree x (List.mem_cons_of_mem _ hx))]
      rfl

/-- A separator of non-word characters not ending in a period glues the
invariant across a join. -/
theorem okDW_joinSep {sep : List Char} (hne : sep ≠ [])
    (hw : ∀ c ∈ sep, wordChar c = false) (hl : sep.getLast? ≠ some '.') :
    ∀ (ls : List (List Char)), (∀ l ∈ ls, okDW l) → okDW (joinSep sep ls) := by
  intro ls
  induction ls with
  | nil => intro _; trivial
  | cons a l ih =>
    intro h
    cases l with
    | nil => exact h a (List.mem_cons_self _ _)
    | cons b l2 =>
      rw [joinSep_cons₂, List.append_assoc]
      refine okDW_append (h a (List.mem_cons_self _ _))
        (okDW_append (okDW_of_nonword hw)
          (ih (fun x hx => h x (List.mem_cons_of_mem _ hx)))
          (fun ca cb hca _ hdot => absurd (hdot ▸ hca) hl)) ?_
      intro ca cb hca hcb hdot
      obtain ⟨s0, srest, hsep⟩ := List.exists_cons_of_ne_nil hne
      rw [hsep] at hcb
      have hcb2 : s0 = cb := by simpa using hcb
      subst hcb2
      refine hw s0 ?_
      rw [hsep]
      exact List.mem_cons_self _ _

/-! ## C3: dot-spacing, word-splitting and strip lemmas -/

/-- Under the invariant the dot-spacing substitution is the identity. -/
theorem dotSpace_nop : ∀ {l : List Char}, okDW l → dotSpace l = l := by
  intro l
  induction l with
  | nil => intro _; rfl
  | cons c cs ih =>
    intro h
    cases cs with
    | nil => rfl
    | cons d rest =>
      show dotSpace (c :: d :: rest) = _
      rw [dotSpace, if_neg (by
        rintro ⟨hc, hwd⟩
        rw [h.1 hc] at hwd
        exact absurd hwd (by simp))]
      rw [ih h.2]

/-- The head of a dot-spaced list is the head of the input. -/
theorem dotSpace_head (c : Char) (l : List Char) :
    ∃ tl, dotSpace (c :: l) = c :: tl := by
  cases l with
  | nil => exact ⟨[], rfl⟩
  | cons d rest =>
    rw [dotSpace]
    by_cases h : c = '.' ∧ wordChar d = true
    · rw [if_pos h]
      exact ⟨' ' :: d :: dotSpace rest, by rw [h.1]⟩
    · rw [if_neg h]
      exact ⟨dotSpace (d :: rest), rfl⟩

/-- The output of the dot-spacing substitution satisfies the invariant. -/
theorem okDW_dotSpace : ∀ (l : List Char), okDW (dotSpace l) := by
  intro l
  induction l using dotSpace.induct with
  | case1 => trivial
  | case2 c => trivial
  | case3 c d rest h ih =>
    rw [dotSpace, if_pos h]
    obtain ⟨hc, hd⟩ := h
    refine okDW_cons (fun e he _ => ?_) ?_
    · cases he
      decide
    · refine okDW_cons (fun e he hsp => ?_) ?_
      · exact absurd hsp (by decide)
      · cases rest with
        | nil => trivial
        | cons e rest2 =>
          obtain ⟨tl, htl⟩ := dotSpace_head e rest2
          rw [htl]
          refine okDW_cons (fun f hf hdot => ?_) (htl ▸ ih)
          cases hf
          exact absurd (hdot ▸ hd) (by decide)
  | case4 c d rest h ih =>
    rw [dotSpace, if_neg h]
    obtain ⟨tl, htl⟩ := dotSpace_head d rest
    rw [htl]
    refine okDW_cons (fun f hf hc => ?_) (htl ▸ ih)
    cases hf
    by_cases hw : wordChar d = true
    · exact absurd ⟨hc, hw⟩ h
    · simpa using hw

/-- Dot-spacing only adds spaces. -/
theorem mem_dotSpace : ∀ {l : List Char} {c : Char}, c ∈ dotSpace l → c ∈ l ∨ c = ' ' := by
  intro l
  induction l using dotSpace.induct with
  | case1 => intro c hc; exact absurd hc (List.not_mem_nil c)
  | case2 a => intro c hc; exact Or.inl hc
  | case3 a d rest h ih =>
    intro c hc
    rw [dotSpace, if_pos h] at hc
    rcases List.mem_cons.mp hc with rfl | hc
    · exact Or.inl (h.1 ▸ List.mem_cons_self _ _)
    · rcases List.mem_cons.mp hc with rfl | hc
      · exact Or.inr rfl
      · rcases List.mem_cons.mp hc with rfl | hc
        · exact Or.inl (List.mem_cons_of_mem _ (List.mem_cons_self _ _))
        · rcases ih hc with h2 | h2
          · exact Or.inl (List.mem_cons_of_mem _ (List.mem_cons_of_mem _ h2))
          · exact Or.inr h2
  | case4 a d rest h ih =>
    intro c hc
    rw [dotSpace, if_neg h] at hc
    rcases List.mem_cons.mp hc with rfl | hc
    · exact Or.inl (List.mem_cons_self _ _)
    · rcases ih hc with h2 | h2
      · exact Or.inl (List.mem_cons_of_mem _ h2)
      · exact Or.inr h2

/-- Words are nonempty. -/
theorem words_ne_nil {l : List Char} : ∀ w ∈ words l, w ≠ [] := by
  intro w hw
  have := (List.mem_filter.mp hw).2
  simpa using this

/-- Words contain no whitespace. -/
theorem words_WSfree {l : List Char} : ∀ w ∈ words l, ∀ c ∈ w, isWS c = false := by
  intro w hw
  exact splitP_sep_false isWS l w (List.mem_filter.mp hw).1

/-- Characters of words come from the list. -/
theorem words_sub {l : List Char} : ∀ w ∈ words l, ∀ c ∈ w, c ∈ l := by
  intro w hw
  exact mem_splitP_sub isWS l w (List.mem_filter.mp hw).1

/-- Words inherit the dot-wordchar invariant. -/
theorem words_okDW {l : List Char} (h : okDW l) : ∀ w ∈ words l, okDW w := by
  intro w hw
  exact splitP_okDW isWS l h w (List.mem_filter.mp hw).1

/-- Word-splitting cuts at any whitespace character. -/
theorem words_append_sep {c : Char} (hc : isWS c = true) (a b : List Char) :
    words (a ++ c :: b) = words a ++ words b := by
  unfold words
  rw [splitP_append_sep isWS hc, List.filter_append]

/-- A nonempty whitespace-free list is one single word. -/
theorem words_single {l : List Char} (h1 : l ≠ []) (h2 : ∀ c ∈ l, isWS c = false) :
    words l = [l] := by
  unfold words
  rw [splitP_nosep isWS l h2]
  simp [h1]

/-- The words of a space-join are the concatenated words of the pieces. -/
theorem words_joinSep :
    ∀ (ls : List (List Char)), words (joinSep [' '] ls) = (ls.map words).flatten := by
  intro ls
  induction ls with
  | nil => rfl
  | cons a l ih =>
    cases l with
    | nil =>
      show words a = (words a ++ [])
      rw [List.append_nil]
    | cons b l2 =>
      rw [joinSep_cons₂,
        show (a ++ [' ']) ++ joinSep [' '] (b :: l2) =
          a ++ ' ' :: joinSep [' '] (b :: l2) by simp,
        words_append_sep (by decide), ih]
      rfl

/-- Characters survive stripping. -/
theorem stripL_sub {l : List Char} : ∀ c ∈ stripL l, c ∈ l := by
  intro c hc
  unfold stripL at hc
  rw [List.mem_reverse] at hc
  have h1 := List.dropWhile_sublist (l := (l.dropWhile isWS).reverse) isWS
  have h2 := h1.subset hc
  rw [List.mem_reverse] at h2
  exact (List.dropWhile_sublist isWS).subset h2

/-- Stripping a list with non-whitespace first and last characters changes
nothing. -/
theorem stripL_eq_self {l : List Char}
    (h1 : ∀ c, l.head? = some c → isWS c = false)
    (h2 : ∀ c, l.getLast? = some c → isWS c = false) : stripL l = l := by
  unfold stripL
  have hd : l.dropWhile isWS = l := by
    cases l with
    | nil => rfl
    | cons a as =>
      rw [List.dropWhile_cons, if_neg (by simp [h1 a rfl])]
  rw [hd]
  have hr : l.reverse.dropWhile isWS = l.reverse := by
    cases hl : l.reverse with
    | nil => rfl
    | cons a as =>
      rw [List.dropWhile_cons, if_neg ?_]
      simp only [Bool.not_eq_true]
      refine h2 a ?_
      rw [← List.head?_reverse, hl]
      rfl
  rw [hr, List.reverse_reverse]

/-! ## C3: capitalize-word branch equations and piece decomposition -/

/-- The last element of a mapped list, generically. -/
theorem getLast?_map_gen {α β : Type} (f : α → β) :
    ∀ l : List α, (l.map f).getLast? = l.getLast?.map f := by
  intro l
  induction l with
  | nil => rfl
  | cons a as ih =>
    cases as with
    | nil => rfl
    | cons b bs =>
      simp only [List.map_cons] at ih ⊢
      rw [List.getLast?_cons_cons, List.getLast?_cons_cons, ih]

/-- The hyphen branch of `capitalize_word`. -/
theorem capWord_hyphen {w : List Char} (h : w.contains '-' = true) :
    capWord w = joinSep ['-'] ((splitP (fun c => c = '-') w).map pyCapitalizeL) := by
  unfold capWord
  rw [if_pos h]

/-- The apostrophe branch of `capitalize_word`. -/
theorem capWord_apos {w : List Char} (h1 : w.contains '-' = false)
    (h2 : w.contains apos = true) :
    capWord w = joinSep [apos] ((splitP (fun c => c = apos) w).map pyCapitalizeL) := by
  unfold capWord
  rw [if_neg (by rw [h1]; simp), if_pos h2]

/-- The period branch of `capitalize_word`. -/
theorem capWord_dot {w : List Char} (h1 : w.contains '-' = false)
    (h2 : w.contains apos = false) (h3 : (w.contains '.' && !endsDot w) = true) :
    capWord w = joinSep ['.', ' '] ((splitP (fun c => c = '.') w).map pyCapitalizeL) := by
  unfold capWord
  rw [if_neg (by rw [h1]; simp), if_neg (by rw [h2]; simp), if_pos h3]

/-- The plain branch of `capitalize_word`. -/
theorem capWord_plain {w : List Char} (h1 : w.contains '-' = false)
    (h2 : w.contains apos = false) (h3 : (w.contains '.' && !endsDot w) = false) :
    capWord w = pyCapitalizeL w := by
  unfold capWord
  rw [if_neg (by rw [h1]; simp), if_neg (by rw [h2]; simp), if_neg (by rw [h3]; simp)]

/-- Pieces of a dot-join decomposition are nonempty. -/
theorem piecesDot_ne_nil : ∀ {qs : List (List Char)}, qs ≠ [] → piecesDot qs ≠ [] := by
  intro qs h
  cases qs with
  | nil => exact absurd rfl h
  | cons q rest =>
    cases rest with
    | nil => simp [piecesDot]
    | cons q2 rest2 => simp [piecesDot]

/-- Membership in the dot-piece decomposition: a non-final part with its
trailing period, or the final part. -/
theorem mem_piecesDot : ∀ {qs : List (List Char)} {p : List Char},
    p ∈ piecesDot qs → (∃ q ∈ qs, p = q ++ ['.']) ∨ qs.getLast? = some p := by
  intro qs
  induction qs with
  | nil => intro p hp; exact absurd hp (List.not_mem_nil p)
  | cons q rest ih =>
    intro p hp
    cases rest with
    | nil =>
      simp only [piecesDot, List.mem_singleton] at hp
      subst hp
      exact Or.inr rfl
    | cons q2 rest2 =>
      rw [show piecesDot (q :: q2 :: rest2) = (q ++ ['.']) :: piecesDot (q2 :: rest2)
        from rfl] at hp
      rcases List.mem_cons.mp hp with rfl | hp
      · exact Or.inl ⟨q, List.mem_cons_self _ _, rfl⟩
      · rcases ih hp with ⟨q3, hq3, rfl⟩ | h
        · exact Or.inl ⟨q3, List.mem_cons_of_mem _ hq3, rfl⟩
        · exact Or.inr (by rw [List.getLast?_cons_cons]; exact h)

/-- The dot-space join rewritten as a space join of the dot pieces. -/
theorem joinDot_eq_joinSpace :
    ∀ (qs : List (List Char)), qs ≠ [] →
      joinSep ['.', ' '] qs = joinSep [' '] (piecesDot qs) := by
  intro qs
  induction qs with
  | nil => intro h; exact absurd rfl h
  | cons q rest ih =>
    intro _
    cases rest with
    | nil => rfl
    | cons q2 rest2 =>
      rw [joinSep_cons₂,
        show piecesDot (q :: q2 :: rest2) = (q ++ ['.']) :: piecesDot (q2 :: rest2)
          from rfl]
      obtain ⟨p0, ps0, hps⟩ := List.exists_cons_of_ne_nil
        (piecesDot_ne_nil (by simp : (q2 :: rest2 : List (List Char)) ≠ []))
      rw [hps, joinSep_cons₂, ← hps, ← ih (by simp)]
      simp [List.append_assoc]

/-- The words of a dot-space join are the dot pieces, when the parts are
whitespace-free and the final part is nonempty. -/
theorem words_joinDot :
    ∀ (qs : List (List Char)), (∀ q ∈ qs, ∀ c ∈ q, isWS c = false) →
      (∀ s, qs.getLast? = some s → s ≠ []) →
      words (joinSep ['.', ' '] qs) = piecesDot qs := by
  intro qs
  induction qs with
  | nil => intro _ _; rfl
  | cons q rest ih =>
    intro hws hlast
    cases rest with
    | nil =>
      show words q = [q]
      exact words_single (hlast q rfl) (hws q (List.mem_cons_self _ _))
    | cons q2 rest2 =>
      rw [joinSep_cons₂,
        show (q ++ ['.', ' ']) = (q ++ ['.']) ++ [' '] by simp,
        List.append_assoc,
        show ([' '] ++ joinSep ['.', ' '] (q2 :: rest2)) =
          ' ' :: joinSep ['.', ' '] (q2 :: rest2) from rfl,
        words_append_sep (by decide),
        words_single (by simp) (by
          intro c hc
          rcases List.mem_append.mp hc with hc | hc
          · exact hws q (List.mem_cons_self _ _) c hc
          · rcases List.mem_singleton.mp hc with rfl
            decide),
        ih (fun x hx => hws x (List.mem_cons_of_mem _ hx))
          (fun s hs => hlast s (by rw [List.getLast?_cons_cons]; exact hs))]
      rfl

/-- Head of a space join with a nonempty first piece. -/
theorem joinSep_head? {sep : List Char} :
    ∀ {ps : List (List Char)} {q : List Char}, ps.head? = some q → q ≠ [] →
      (joinSep sep ps).head? = q.head? := by
  intro ps q hq hne
  cases ps with
  | nil => simp at hq
  | cons a rest =>
    rw [List.head?_cons, Option.some.injEq] at hq
    subst hq
    cases rest with
    | nil => rfl
    | cons b rest2 =>
      rw [joinSep_cons₂]
      obtain ⟨c, cs, rfl⟩ := List.exists_cons_of_ne_nil hne
      rfl

/-- Last character of a space join across nonempty pieces. -/
theorem joinSep_getLast? {sep : List Char} (hsep : sep ≠ []) :
    ∀ (ps : List (List Char)), ps ≠ [] → (∀ p ∈ ps, p ≠ []) →
      ∃ q, ps.getLast? = some q ∧ (joinSep sep ps).getLast? = q.getLast? := by
  intro ps
  induction ps with
  | nil => intro h _; exact absurd rfl h
  | cons a rest ih =>
    intro _ hall
    cases rest with
    | nil => exact ⟨a, rfl, rfl⟩
    | cons b rest2 =>
      obtain ⟨q, hq1, hq2⟩ := ih (by simp)
        (fun p hp => hall p (List.mem_cons_of_mem _ hp))
      refine ⟨q, by rw [List.getLast?_cons_cons]; exact hq1, ?_⟩
      rw [joinSep_cons₂, List.append_assoc,
        List.getLast?_append_of_ne_nil _ (by
          obtain ⟨s0, ss, rfl⟩ := List.exists_cons_of_ne_nil hsep
          simp),
        List.getLast?_append_of_ne_nil _ (by
          have hqne : q ≠ [] := hall q (List.mem_cons_of_mem _
            (List.mem_of_mem_getLast? hq1))
          intro hjoin
          rw [hjoin] at hq2
          obtain ⟨c, cs, rfl⟩ := List.exists_cons_of_ne_nil hqne
          exact absurd hq2.symm (by simp)), hq2]

/-! ## C3: fixed points of `capitalize_word` -/

/-- A false `contains` is non-membership. -/
theorem not_mem_of_contains_false {α : Type} [BEq α] [LawfulBEq α] {l : List α} {a : α}
    (h : l.contains a = false) : a ∉ l := by
  intro hm
  rw [contains_mem.mpr hm] at h
  exact absurd h (by simp)

/-- Properties of the capitalized segments of a split word: whitespace-free,
invariant-preserving, separator-free, and transporting low-code-point
characters back into the word. -/
theorem capParts_props {s : Char} (hs : s.toNat < 65) {w : List Char}
    (hws : ∀ c ∈ w, isWS c = false) (hok : okDW w) :
    ∀ q ∈ (splitP (fun c => c = s) w).map pyCapitalizeL,
      (∀ c ∈ q, isWS c = false) ∧ okDW q ∧ s ∉ q ∧
      (∀ d : Char, d.toNat < 65 → d ∈ q → d ∈ w) := by
  intro q hq
  obtain ⟨q0, hq0, rfl⟩ := List.mem_map.mp hq
  refine ⟨cap_WSfree (fun c hc => hws c (mem_splitP_sub _ w q0 hq0 c hc)),
    okDW_cap (splitP_okDW _ w hok q0 hq0), ?_, ?_⟩
  · intro hsq
    have hmem : s ∈ q0 := (mem_cap_special hs).mp hsq
    have := splitP_sep_false _ w q0 hq0 s hmem
    simp at this
  · intro d hd hdq
    exact mem_splitP_sub _ w q0 hq0 d ((mem_cap_special hd).mp hdq)

/-- Lists with at least two elements decompose into two heads. -/
theorem exists_two_of_le_length {α : Type} {l : List α} (h : 2 ≤ l.length) :
    ∃ a b t, l = a :: b :: t := by
  cases l with
  | nil => simp at h
  | cons a rest =>
    cases rest with
    | nil => simp at h
    | cons b t => exact ⟨a, b, t, rfl⟩

/-- The capitalized segments, re-capitalized, are unchanged. -/
theorem capParts_idem (P0 : List (List Char)) :
    (P0.map pyCapitalizeL).map pyCapitalizeL = P0.map pyCapitalizeL := by
  rw [List.map_map]
  exact List.map_congr_left (fun q _ => cap_idem q)

/-- The hyphen branch of `capitalize_word` produces a single whitespace-free
word that is its own fixed point. -/
theorem capWord_good_hyphen {w : List Char} (hws : ∀ c ∈ w, isWS c = false)
    (hok : okDW w) (hcon : w.contains '-' = true) :
    words (capWord w) = [capWord w] ∧ okDW (capWord w) ∧
    capWord (capWord w) = capWord w ∧ (',' ∉ w → ',' ∉ capWord w) := by
  have hmem : '-' ∈ w := contains_mem.mp hcon
  have hprops := capParts_props (show ('-' : Char).toNat < 65 by decide) hws hok
  have hlen2 : 2 ≤ ((splitP (fun c => c = '-') w).map pyCapitalizeL).length := by
    rw [List.length_map]
    exact splitP_length_ge2 _ w ⟨'-', hmem, by simp⟩
  obtain ⟨a, b, t, habt⟩ := exists_two_of_le_length hlen2
  have hsep_mem : '-' ∈ capWord w := by
    rw [capWord_hyphen hcon, habt]
    exact joinSep_sep_mem (List.mem_singleton.mpr rfl) a b t
  have hone : capWord w ≠ [] := List.ne_nil_of_mem hsep_mem
  have hWS : ∀ c ∈ capWord w, isWS c = false := by
    intro c hc
    rw [capWord_hyphen hcon] at hc
    rcases mem_joinSep hc with ⟨q, hq, hcq⟩ | hc
    · exact (hprops q hq).1 c hcq
    · rcases List.mem_singleton.mp hc with rfl
      decide
  have hok2 : okDW (capWord w) := by
    rw [capWord_hyphen hcon]
    exact okDW_joinSep (by simp) (by
        intro c hc
        rcases List.mem_singleton.mp hc with rfl
        decide) (by simp)
      _ (fun q hq => (hprops q hq).2.1)
  have hsplit : splitP (fun c => c = '-') (capWord w) =
      (splitP (fun c => c = '-') w).map pyCapitalizeL := by
    rw [capWord_hyphen hcon]
    refine splitP_joinSep_inv (by simp) _ (by rw [habt]; simp) ?_
    intro q hq c hc
    simp only [decide_eq_false_iff_not]
    intro hEq
    subst hEq
    exact (hprops q hq).2.2.1 hc
  refine ⟨words_single hone hWS, hok2, ?_, ?_⟩
  · calc capWord (capWord w)
        = joinSep ['-'] ((splitP (fun c => c = '-') (capWord w)).map pyCapitalizeL) :=
          capWord_hyphen (contains_mem.mpr hsep_mem)
      _ = joinSep ['-'] (((splitP (fun c => c = '-') w).map pyCapitalizeL).map pyCapitalizeL) := by
          rw [hsplit]
      _ = joinSep ['-'] ((splitP (fun c => c = '-') w).map pyCapitalizeL) := by
          rw [capParts_idem]
      _ = capWord w := (capWord_hyphen hcon).symm
  · intro hcomma hmem2
    rw [capWord_hyphen hcon] at hmem2
    rcases mem_joinSep hmem2 with ⟨q, hq, hcq⟩ | hc
    · exact hcomma ((hprops q hq).2.2.2 ',' (by decide) hcq)
    · rcases List.mem_singleton.mp hc with h
      exact absurd h (by decide)

/-- The apostrophe branch of `capitalize_word` produces a single
whitespace-free word that is its own fixed point. -/
theorem capWord_good_apos {w : List Char} (hws : ∀ c ∈ w, isWS c = false)
    (hok : okDW w) (h1 : w.contains '-' = false) (hcon : w.contains apos = true) :
    words (capWord w) = [capWord w] ∧ okDW (capWord w) ∧
    capWord (capWord w) = capWord w ∧ (',' ∉ w → ',' ∉ capWord w) := by
  have hmem : apos ∈ w := contains_mem.mp hcon
  have hnoH : '-' ∉ w := not_mem_of_contains_false h1
  have hprops := capParts_props (show apos.toNat < 65 by decide) hws hok
  have hlen2 : 2 ≤ ((splitP (fun c => c = apos) w).map pyCapitalizeL).length := by
    rw [List.length_map]
    exact splitP_length_ge2 _ w ⟨apos, hmem, by simp⟩
  obtain ⟨a, b, t, habt⟩ := exists_two_of_le_length hlen2
  have hsep_mem : apos ∈ capWord w := by
    rw [capWord_apos h1 hcon, habt]
    exact joinSep_sep_mem (List.mem_singleton.mpr rfl) a b t
  have hone : capWord w ≠ [] := List.ne_nil_of_mem hsep_mem
  have hWS : ∀ c ∈ capWord w, isWS c = false := by
    intro c hc
    rw [capWord_apos h1 hcon] at hc
    rcases mem_joinSep hc with ⟨q, hq, hcq⟩ | hc
    · exact (hprops q hq).1 c hcq
    · rcases List.mem_singleton.mp hc with rfl
      decide
  have hnoH2 : (capWord w).contains '-' = false := by
    cases hb : (capWord w).contains '-' with
    | false => rfl
    | true =>
      have := contains_mem.mp hb
      rw [capWord_apos h1 hcon] at this
      rcases mem_joinSep this with ⟨q, hq, hcq⟩ | hc
      · exact absurd ((hprops q hq).2.2.2 '-' (by decide) hcq) hnoH
      · rcases List.mem_singleton.mp hc with h
        exact absurd h (by decide)
  have hok2 : okDW (capWord w) := by
    rw [capWord_apos h1 hcon]
    exact okDW_joinSep (by simp) (by
        intro c hc
        rcases List.mem_singleton.mp hc with rfl
        decide) (by decide)
      _ (fun q hq => (hprops q hq).2.1)
  have hsplit : splitP (fun c => c = apos) (capWord w) =
      (splitP (fun c => c = apos) w).map pyCapitalizeL := by
    rw [capWord_apos h1 hcon]
    refine splitP_joinSep_inv (by simp) _ (by rw [habt]; simp) ?_
    intro q hq c hc
    simp only [decide_eq_false_iff_not]
    intro hEq
    subst hEq
    exact (hprops q hq).2.2.1 hc
  refine ⟨words_single hone hWS, hok2, ?_, ?_⟩
  · calc capWord (capWord w)
        = joinSep [apos] ((splitP (fun c => c = apos) (capWord w)).map pyCapitalizeL) :=
          capWord_apos hnoH2 (contains_mem.mpr hsep_mem)
      _ = joinSep [apos] (((splitP (fun c => c = apos) w).map pyCapitalizeL).map pyCapitalizeL) := by
          rw [hsplit]
      _ = joinSep [apos] ((splitP (fun c => c = apos) w).map pyCapitalizeL) := by
          rw [capParts_idem]
      _ = capWord w := (capWord_apos h1 hcon).symm
  · intro hcomma hmem2
    rw [capWord_apos h1 hcon] at hmem2
    rcases mem_joinSep hmem2 with ⟨q, hq, hcq⟩ | hc
    · exact hcomma ((hprops q hq).2.2.2 ',' (by decide) hcq)
    · rcases List.mem_singleton.mp hc with h
      exact absurd h (by decide)

/-- The plain branch of `capitalize_word`: capitalization alone, a fixed
point. -/
theorem capWord_good_plain {w : List Char} (hne : w ≠ [])
    (hws : ∀ c ∈ w, isWS c = false) (hok : okDW w)
    (h1 : w.contains '-' = false) (h2 : w.contains apos = false)
    (h3 : (w.contains '.' && !endsDot w) = false) :
    words (capWord w) = [capWord w] ∧ okDW (capWord w) ∧
    capWord (capWord w) = capWord w ∧ (',' ∉ w → ',' ∉ capWord w) := by
  have hcw : capWord w = pyCapitalizeL w := capWord_plain h1 h2 h3
  have hone : capWord w ≠ [] := by
    rw [hcw]
    intro hc
    exact hne (pyCap_eq_nil.mp hc)
  have hWS : ∀ c ∈ capWord w, isWS c = false := by
    rw [hcw]
    exact cap_WSfree hws
  have hnoH : '-' ∉ pyCapitalizeL w := by
    intro hm
    exact not_mem_of_contains_false h1 ((mem_cap_special (by decide)).mp hm)
  have hnoA : apos ∉ pyCapitalizeL w := by
    intro hm
    exact not_mem_of_contains_false h2 ((mem_cap_special (by decide)).mp hm)
  have hb1 : (pyCapitalizeL w).contains '-' = false := by
    cases hb : (pyCapitalizeL w).contains '-' with
    | false => rfl
    | true => exact absurd (contains_mem.mp hb) hnoH
  have hb2 : (pyCapitalizeL w).contains apos = false := by
    cases hb : (pyCapitalizeL w).contains apos with
    | false => rfl
    | true => exact absurd (contains_mem.mp hb) hnoA
  have hb3 : ((pyCapitalizeL w).contains '.' && !endsDot (pyCapitalizeL w)) = false := by
    rcases Bool.and_eq_false_iff.mp h3 with h | h
    · have : '.' ∉ pyCapitalizeL w := by
        intro hm
        have := contains_mem.mpr ((mem_cap_special (by decide)).mp hm)
        rw [h] at this
        exact absurd this (by simp)
      have hcf : (pyCapitalizeL w).contains '.' = false := by
        cases hb : (pyCapitalizeL w).contains '.' with
        | false => rfl
        | true => exact absurd (contains_mem.mp hb) this
      rw [hcf]
      rfl
    · have hed : endsDot w = true := by
        cases hb : endsDot w with
        | true => rfl
        | false => rw [hb] at h; exact absurd h (by simp)
      rw [endsDot_cap, hed]
      simp
  refine ⟨words_single hone hWS, hcw ▸ okDW_cap hok, ?_, ?_⟩
  · rw [hcw, capWord_plain hb1 hb2 hb3, cap_idem]
  · intro hcomma hm
    rw [hcw] at hm
    exact hcomma ((mem_cap_special (by decide)).mp hm)

/-- The period branch of `capitalize_word`: the output splits into
space-separated pieces, each a fixed point of `capitalize_word`. -/
theorem capWord_good_dot {w : List Char} (hne : w ≠ [])
    (hws : ∀ c ∈ w, isWS c = false) (hok : okDW w)
    (h1 : w.contains '-' = false) (h2 : w.contains apos = false)
    (h3 : (w.contains '.' && !endsDot w) = true) :
    capWord w = joinSep [' '] (words (capWord w)) ∧ words (capWord w) ≠ [] ∧
    (∀ p ∈ words (capWord w), okDW p ∧ capWord p = p ∧ (',' ∉ w → ',' ∉ p)) := by
  have hdotw : ('.' : Char).toNat < 65 := by decide
  obtain ⟨hcon, hend⟩ := Bool.and_eq_true_iff.mp h3
  have hendf : endsDot w = false := by
    cases hb : endsDot w with
    | false => rfl
    | true => rw [hb] at hend; exact absurd hend (by simp)
  have hprops := capParts_props hdotw hws hok
  have hP0ne := splitP_ne_nil (fun c => c = '.') w
  have hPne : (splitP (fun c => c = '.') w).map pyCapitalizeL ≠ [] := by
    simpa using hP0ne
  have hlastne : ∀ s, ((splitP (fun c => c = '.') w).map pyCapitalizeL).getLast? = some s →
      s ≠ [] := by
    intro s hs
    rw [getLast?_map_gen] at hs
    cases hq0 : (splitP (fun c => c = '.') w).getLast? with
    | none => rw [hq0] at hs; exact absurd hs (by simp)
    | some q0 =>
      rw [hq0] at hs
      have hs2 : pyCapitalizeL q0 = s := by simpa using hs
      subst hs2
      have hq0ne : q0 ≠ [] := by
        refine splitP_getLast_ne _ w hne ?_ q0 hq0
        intro c hc
        simp only [decide_eq_false_iff_not]
        intro hEq
        subst hEq
        unfold endsDot at hendf
        rw [hc] at hendf
        simp at hendf
      intro hc
      exact hq0ne (pyCap_eq_nil.mp hc)
  have hwords : words (capWord w) =
      piecesDot ((splitP (fun c => c = '.') w).map pyCapitalizeL) := by
    rw [capWord_dot h1 h2 h3]
    exact words_joinDot _ (fun q hq => (hprops q hq).1) hlastne
  refine ⟨?_, ?_, ?_⟩
  · rw [hwords, capWord_dot h1 h2 h3]
    exact joinDot_eq_joinSpace _ hPne
  · rw [hwords]
    exact piecesDot_ne_nil hPne
  · intro p hp
    rw [hwords] at hp
    rcases mem_piecesDot hp with ⟨q, hq, rfl⟩ | hlast
    · obtain ⟨hqWS, hqok, hqdot, hqtrans⟩ := hprops q hq
      obtain ⟨q0, hq0, rfl⟩ := List.mem_map.mp hq
      refine ⟨?_, ?_, ?_⟩
      · refine okDW_append hqok trivial ?_
        intro ca cb hca hcb hdot
        have hcb2 : ('.' : Char) = cb := by simpa using hcb
        subst hcb2
        decide
      · have hb1 : (pyCapitalizeL q0 ++ ['.']).contains '-' = false := by
          cases hb : (pyCapitalizeL q0 ++ ['.']).contains '-' with
          | false => rfl
          | true =>
            rcases List.mem_append.mp (contains_mem.mp hb) with hm | hm
            · exact absurd (hqtrans '-' (by decide) hm) (not_mem_of_contains_false h1)
            · rcases List.mem_singleton.mp hm with h
              exact absurd h (by decide)
        have hb2 : (pyCapitalizeL q0 ++ ['.']).contains apos = false := by
          cases hb : (pyCapitalizeL q0 ++ ['.']).contains apos with
          | false => rfl
          | true =>
            rcases List.mem_append.mp (contains_mem.mp hb) with hm | hm
            · exact absurd (hqtrans apos (by decide) hm) (not_mem_of_contains_false h2)
            · rcases List.mem_singleton.mp hm with h
              exact absurd h (by decide)
        have hb3 : ((pyCapitalizeL q0 ++ ['.']).contains '.' &&
            !endsDot (pyCapitalizeL q0 ++ ['.'])) = false := by
          have : endsDot (pyCapitalizeL q0 ++ ['.']) = true := by
            unfold endsDot
            rw [List.getLast?_concat]
            simp
          rw [this]
          simp
        rw [capWord_plain hb1 hb2 hb3, cap_append_dot]
      · intro hcomma hm
        rcases List.mem_append.mp hm with hm | hm
        · exact hcomma (hqtrans ',' (by decide) hm)
        · rcases List.mem_singleton.mp hm with h
          exact absurd h (by decide)
    · have hpP : p ∈ (splitP (fun c => c = '.') w).map pyCapitalizeL :=
        List.mem_of_mem_getLast? hlast
      obtain ⟨hpWS, hpok, hpdot, hptrans⟩ := hprops p hpP
      obtain ⟨q0, hq0, rfl⟩ := List.mem_map.mp hpP
      refine ⟨hpok, ?_, ?_⟩
      · have hb1 : (pyCapitalizeL q0).contains '-' = false := by
          cases hb : (pyCapitalizeL q0).contains '-' with
          | false => rfl
          | true =>
            exact absurd (hptrans '-' (by decide) (contains_mem.mp hb))
              (not_mem_of_contains_false h1)
        have hb2 : (pyCapitalizeL q0).contains apos = false := by
          cases hb : (pyCapitalizeL q0).contains apos with
          | false => rfl
          | true =>
            exact absurd (hptrans apos (by decide) (contains_mem.mp hb))
              (not_mem_of_contains_false h2)
        have hb3 : ((pyCapitalizeL q0).contains '.' && !endsDot (pyCapitalizeL q0)) = false := by
          have hcf : (pyCapitalizeL q0).contains '.' = false := by
            cases hb : (pyCapitalizeL q0).contains '.' with
            | false => rfl
            | true => exact absurd (contains_mem.mp hb) hpdot
          rw [hcf]
          rfl
        rw [capWord_plain hb1 hb2 hb3, cap_idem]
      · intro hcomma hm
        exact hcomma (hptrans ',' (by decide) hm)

/-- Every word of the normalized text maps under `capitalize_word` to a
space-join of nonempty pieces, each of which is again a whitespace-free,
invariant-satisfying fixed point of `capitalize_word`. -/
theorem capWord_good {w : List Char} (hne : w ≠ [])
    (hws : ∀ c ∈ w, isWS c = false) (hok : okDW w) :
    capWord w = joinSep [' '] (words (capWord w)) ∧ words (capWord w) ≠ [] ∧
    (∀ p ∈ words (capWord w), okDW p ∧ capWord p = p ∧ (',' ∉ w → ',' ∉ p)) := by
  by_cases hc1 : w.contains '-' = true
  · obtain ⟨hw1, hw2, hw3, hw4⟩ := capWord_good_hyphen hws hok hc1
    rw [hw1]
    exact ⟨rfl, by simp, by
      intro p hp
      rcases List.mem_singleton.mp hp with rfl
      exact ⟨hw2, hw3, hw4⟩⟩
  · have hc1f : w.contains '-' = false := by
      cases hb : w.contains '-' with
      | false => rfl
      | true => exact absurd hb hc1
    by_cases hc2 : w.contains apos = true
    · obtain ⟨hw1, hw2, hw3, hw4⟩ := capWord_good_apos hws hok hc1f hc2
      rw [hw1]
      exact ⟨rfl, by simp, by
        intro p hp
        rcases List.mem_singleton.mp hp with rfl
        exact ⟨hw2, hw3, hw4⟩⟩
    · have hc2f : w.contains apos = false := by
        cases hb : w.contains apos with
        | false => rfl
        | true => exact absurd hb hc2
      by_cases hc3 : (w.contains '.' && !endsDot w) = true
      · exact capWord_good_dot hne hws hok hc1f hc2f hc3
      · have hc3f : (w.contains '.' && !endsDot w) = false := by
          cases hb : (w.contains '.' && !endsDot w) with
          | false => rfl
          | true => exact absurd hb hc3
        obtain ⟨hw1, hw2, hw3, hw4⟩ := capWord_good_plain hne hws hok hc1f hc2f hc3f
        rw [hw1]
        exact ⟨rfl, by simp, by
          intro p hp
          rcases List.mem_singleton.mp hp with rfl
          exact ⟨hw2, hw3, hw4⟩⟩

/-- The formatting of a comma-free part is a fixed point of `format_text`:
re-running the formatter on an invariant-satisfying, comma-free
`' '.join(capitalize_word(w) ...)` output changes nothing. -/
theorem fmtPart_idem {X : List Char} (hok : okDW X) (hcomma : ',' ∉ X) :
    formatTextL (fmtPart X) = fmtPart X := by
  have hWgood : ∀ w ∈ words X, capWord w = joinSep [' '] (words (capWord w)) ∧
      words (capWord w) ≠ [] ∧
      (∀ p ∈ words (capWord w), okDW p ∧ capWord p = p ∧ ',' ∉ p) := by
    intro w hw
    obtain ⟨hg1, hg2, hg3⟩ := capWord_good (words_ne_nil w hw) (words_WSfree w hw)
      (words_okDW hok w hw)
    exact ⟨hg1, hg2, fun p hp => ⟨(hg3 p hp).1, (hg3 p hp).2.1,
      (hg3 p hp).2.2 (fun hm => hcomma (words_sub w hw ',' hm))⟩⟩
  have hwordsY : words (fmtPart X) =
      ((words X).map (fun w => words (capWord w))).flatten := by
    unfold fmtPart
    rw [words_joinSep, List.map_map]
    rfl
  have hpieces : ∀ p ∈ words (fmtPart X),
      p ≠ [] ∧ (∀ c ∈ p, isWS c = false) ∧ okDW p ∧ capWord p = p ∧ ',' ∉ p := by
    intro p hp
    rw [hwordsY] at hp
    obtain ⟨lp, hlp, hplp⟩ := List.mem_flatten.mp hp
    obtain ⟨w, hw, rfl⟩ := List.mem_map.mp hlp
    obtain ⟨hg1, hg2, hg3⟩ := hWgood w hw
    exact ⟨words_ne_nil p hplp, words_WSfree p hplp, (hg3 p hplp).1,
      (hg3 p hplp).2.1, (hg3 p hplp).2.2⟩
  have hfix : fmtPart X = joinSep [' '] (words (fmtPart X)) := by
    rw [hwordsY]
    show joinSep [' '] ((words X).map capWord) = _
    rw [show (words X).map capWord =
        ((words X).map (fun w => words (capWord w))).map (joinSep [' ']) from by
      rw [List.map_map]
      exact List.map_congr_left (fun w hw => (hWgood w hw).1)]
    exact joinSep_flatten [' '] _ (fun l hl => by
      obtain ⟨w, hw, rfl⟩ := List.mem_map.mp hl
      exact (hWgood w hw).2.1)
  by_cases hY : fmtPart X = []
  · rw [hY]
    rfl
  · have hwYne : words (fmtPart X) ≠ [] := by
      intro h0
      rw [h0] at hfix
      exact hY hfix
    obtain ⟨p0, ps, hps⟩ := List.exists_cons_of_ne_nil hwYne
    have hhead : ∀ c, (fmtPart X).head? = some c → isWS c = false := by
      intro c hc0
      have hp0 := hpieces p0 (by rw [hps]; exact List.mem_cons_self _ _)
      have hhd : (fmtPart X).head? = p0.head? := by
        rw [hfix]
        exact joinSep_head? (by rw [hps]; rfl) hp0.1
      rw [hhd] at hc0
      exact hp0.2.1 c (List.mem_of_mem_head? hc0)
    have hlast : ∀ c, (fmtPart X).getLast? = some c → isWS c = false := by
      intro c hc0
      obtain ⟨q, hq1, hq2⟩ := @joinSep_getLast? [' '] (by simp) (words (fmtPart X)) hwYne
        (fun p hp => (hpieces p hp).1)
      have hqmem : q ∈ words (fmtPart X) := List.mem_of_mem_getLast? hq1
      rw [hfix, hq2] at hc0
      exact (hpieces q hqmem).2.1 c (List.mem_of_mem_getLast? hc0)
    have hstripY : stripL (fmtPart X) = fmtPart X := stripL_eq_self hhead hlast
    have hokY : okDW (fmtPart X) := by
      rw [hfix]
      exact okDW_joinSep (by simp) (by
          intro c hcm
          rcases List.mem_singleton.mp hcm with rfl
          decide) (by decide)
        _ (fun p hp => (hpieces p hp).2.2.1)
    have hcommaY : (fmtPart X).contains ',' = false := by
      cases hb : (fmtPart X).contains ',' with
      | false => rfl
      | true =>
        have hm := contains_mem.mp hb
        rw [hfix] at hm
        rcases mem_joinSep hm with ⟨p, hp, hcp⟩ | hm2
        · exact absurd hcp (hpieces p hp).2.2.2.2
        · rcases List.mem_singleton.mp hm2 with h
          exact absurd h (by decide)
    have hmapid : (words (fmtPart X)).map capWord = words (fmtPart X) := by
      calc (words (fmtPart X)).map capWord
          = (words (fmtPart X)).map (fun p => p) :=
            List.map_congr_left (fun p hp => (hpieces p hp).2.2.2.1)
        _ = words (fmtPart X) := by simp
    unfold formatTextL
    rw [if_neg (by rw [hstripY]; exact hY), if_neg (by rw [hcommaY]; simp),
      hstripY, dotSpace_nop hokY]
    show joinSep [' '] ((words (fmtPart X)).map capWord) = fmtPart X
    rw [hmapid]
    exact hfix.symm

/-- On comma-free inputs, `format_text` is idempotent at the character-list
level. -/
theorem formatTextL_idem {t : List Char} (hc : ',' ∉ t) :
    formatTextL (formatTextL t) = formatTextL t := by
  by_cases hstrip : stripL t = []
  · rw [show formatTextL t = [] from by unfold formatTextL; rw [if_pos hstrip]]
    rfl
  · have hcontains : t.contains ',' = false := by
      cases hb : t.contains ',' with
      | false => rfl
      | true => exact absurd (contains_mem.mp hb) hc
    have hft : formatTextL t = fmtPart (dotSpace (stripL t)) := by
      unfold formatTextL
      rw [if_neg hstrip, if_neg (by rw [hcontains]; simp)]
    rw [hft]
    refine fmtPart_idem (okDW_dotSpace _) ?_
    intro hm
    rcases mem_dotSpace hm with hm2 | hsp
    · exact hc (stripL_sub ',' hm2)
    · exact absurd hsp (by decide)

/-- C3 (counterexample): `format_text` is not idempotent in general. On the
comma-carrying input "a.b-c," the first pass takes the comma branch, whose
words are hyphen-capitalized without the period expansion ("A.b-C"); the
second pass sees no comma, expands the period, and yields the different
string "A. B-C". -/
theorem c3_idempotence_counterexample :
    ¬ format_text (format_text (String.mk ['a', '.', 'b', '-', 'c', ','])) =
      format_text (String.mk ['a', '.', 'b', '-', 'c', ',']) := by
  decide

/-- C3 (amended): on every comma-free input, `format_text` is idempotent:
`format_text (format_text s) = format_text s` whenever the character ','
does not occur in `s`. -/
theorem c3_formatter_idempotent_comma_free (s : String) (h : ',' ∉ s.data) :
    format_text (format_text s) = format_text s := by
  show String.mk (formatTextL (formatTextL s.data)) = String.mk (formatTextL s.data)
  rw [formatTextL_idem h]

/-- Witness for C3: the comma-free name "ad.suman" satisfies the hypothesis
and is formatted idempotently. -/
theorem c3_witness :
    ',' ∉ (String.mk ['a', 'd', '.', 's', 'u', 'm', 'a', 'n']).data ∧
      format_text (format_text (String.mk ['a', 'd', '.', 's', 'u', 'm', 'a', 'n'])) =
        format_text (String.mk ['a', 'd', '.', 's', 'u', 'm', 'a', 'n']) :=
  ⟨by decide, c3_formatter_idempotent_comma_free _ (by decide)⟩

end OrderVerif
